import Mathlib

/-
Shallow embedding of the HLS proxy (src/main.py) for specification checking.

The program text is modelled over `List Char` ("Chars"): Python strings become
character lists, Python dicts become association lists with dict update
semantics (replace the existing key in place, else append), and the regex
driven playlist rewriting becomes explicit scanner functions that mirror the
five patterns and Python's `re.sub` left-to-right non-overlapping scan.

`urlsplitL` / `urlunsplitL` / `urljoinL` model the external URL-resolution
primitive the program uses (`urllib.parse` of CPython 3.11: scheme detection,
netloc splitting, removal of the unsafe bytes tab/CR/LF, and RFC 3986 style
relative resolution with dot-segment removal).
-/

namespace HLSProxy

abbrev Chars := List Char

def sc (s : String) : Chars := s.data

/-- ASCII lower-casing of one character (models `str.lower` on the ASCII
inputs the program feeds it). -/
def lowerC (c : Char) : Char :=
  if 'A' ≤ c ∧ c ≤ 'Z' then Char.ofNat (c.toNat + 32) else c

def toLowerL (s : Chars) : Chars := s.map lowerC

def isAsciiAlpha (c : Char) : Bool :=
  if ('a' ≤ c ∧ c ≤ 'z') ∨ ('A' ≤ c ∧ c ≤ 'Z') then true else false

/-- Drop an expected literal from the front of a string; `none` when the
string does not start with the literal. -/
def dropLit : Chars → Chars → Option Chars
  | [], s => some s
  | _ :: _, [] => none
  | l :: ls, c :: cs => if c = l then dropLit ls cs else none

/-- Substring test (the Python `in` operator on strings). -/
def containsSub (needle hay : Chars) : Bool :=
  hay.tails.any (fun t => needle.isPrefixOf t)

/-- Number of occurrences of a character. -/
def countC (c : Char) (s : Chars) : Nat := s.count c

/-- Split at the first occurrence of a character: the part before it and the
remainder beginning with that character (or `[]`). -/
def splitAtC (c : Char) (s : Chars) : Chars × Chars :=
  (s.takeWhile (fun x => x ≠ c), s.dropWhile (fun x => x ≠ c))

/-- The needle occurs as a contiguous substring. -/
def OccursIn (needle hay : Chars) : Prop := ∃ a b, hay = a ++ needle ++ b

/- ----------------------------------------------------------------- -/
/- Model of the URL-resolution primitive (urllib.parse, CPython 3.11) -/
/- ----------------------------------------------------------------- -/

structure SplitUrl where
  scheme : Chars
  netloc : Chars
  path : Chars
  query : Chars
  frag : Chars
deriving DecidableEq

def schemeChars : Chars :=
  sc "abcdefghijklmnopqrstuvwxyzABCDEFGHIJKLMNOPQRSTUVWXYZ0123456789+-."

/-- Scheme detection of `urlsplit`: the text before the first `:` must be
nonempty, start with an ASCII letter and consist of scheme characters; the
detected scheme is lower-cased. -/
def findScheme (s : Chars) : Option (Chars × Chars) :=
  let pre := s.takeWhile (fun x => x ≠ ':')
  match s.dropWhile (fun x => x ≠ ':') with
  | [] => none
  | _ :: rest =>
    match pre with
    | [] => none
    | c :: _ =>
      if isAsciiAlpha c ∧ pre.all (fun x => schemeChars.contains x) then
        some (toLowerL pre, rest)
      else none

/-- Removal of the unsafe bytes tab, CR and LF that `urlsplit` performs before parsing. -/
def stripUnsafe (s : Chars) : Chars :=
  s.filter (fun c => ¬ (c = '\t' ∨ c = '\r' ∨ c = '\n'))

def nlDelim (c : Char) : Bool := if c = '/' ∨ c = '?' ∨ c = '#' then true else false

/-- Model of `urllib.parse.urlsplit url defScheme` (no parameter splitting;
the program never feeds it `;`-parameter URLs through code under test). -/
def urlsplitL (url : Chars) (defScheme : Chars) : SplitUrl :=
  let u0 := stripUnsafe url
  let sr : Chars × Chars :=
    match findScheme u0 with
    | some (sch, r) => (sch, r)
    | none => (defScheme, u0)
  let scheme := sr.1
  let nr : Chars × Chars :=
    if (sc "//").isPrefixOf sr.2 then
      let r2 := sr.2.drop 2
      (r2.takeWhile (fun c => ¬ nlDelim c), r2.dropWhile (fun c => ¬ nlDelim c))
    else ([], sr.2)
  let netloc := nr.1
  let fr : Chars × Chars :=
    match splitAtC '#' nr.2 with
    | (a, _ :: b) => (a, b)
    | (a, []) => (a, [])
  let pq : Chars × Chars :=
    match splitAtC '?' fr.1 with
    | (a, _ :: b) => (a, b)
    | (a, []) => (a, [])
  ⟨scheme, netloc, pq.1, pq.2, fr.2⟩

/-- Model of `urllib.parse.urlunsplit`. -/
def urlunsplitL (u : SplitUrl) : Chars :=
  let url := u.path
  let url :=
    if u.netloc ≠ [] ∨ (url ≠ [] ∧ (sc "//").isPrefixOf url) then
      sc "//" ++ u.netloc ++ (if url ≠ [] ∧ url.head? ≠ some '/' then '/' :: url else url)
    else url
  let url := if u.scheme ≠ [] then u.scheme ++ ':' :: url else url
  let url := if u.query ≠ [] then url ++ '?' :: u.query else url
  if u.frag ≠ [] then url ++ '#' :: u.frag else url

def usesRelative : List Chars :=
  [sc "", sc "ftp", sc "http", sc "gopher", sc "nntp", sc "imap", sc "wais",
   sc "file", sc "https", sc "shttp", sc "mms", sc "prospero", sc "rtsp",
   sc "rtspu", sc "sftp", sc "svn", sc "svn+ssh", sc "ws", sc "wss"]

def usesNetloc : List Chars :=
  [sc "", sc "ftp", sc "http", sc "gopher", sc "nntp", sc "telnet", sc "imap",
   sc "wais", sc "file", sc "mms", sc "https", sc "shttp", sc "snews",
   sc "prospero", sc "rtsp", sc "rtspu", sc "rsync", sc "svn", sc "svn+ssh",
   sc "sftp", sc "nfs", sc "git", sc "git+ssh", sc "ws", sc "wss"]

/-- The step `segments[1:-1] = filter(None, segments[1:-1])` of `urljoin`. -/
def midFilter (l : List Chars) : List Chars :=
  match l with
  | [] => []
  | x :: xs =>
    match xs.getLast? with
    | none => [x]
    | some last => x :: ((xs.dropLast.filter (fun s => s ≠ [])) ++ [last])

/-- Dot-segment resolution loop of `urljoin`. -/
def resolveSegs (segs : List Chars) : List Chars :=
  segs.foldl
    (fun acc seg =>
      if seg = sc ".." then acc.dropLast
      else if seg = sc "." then acc
      else acc ++ [seg]) []

/-- Model of `urllib.parse.urljoin` (CPython 3.11, RFC 3986 dot-segment
removal, no parameter component). -/
def urljoinL (base url : Chars) : Chars :=
  if base = [] then url
  else if url = [] then base
  else
    let b := urlsplitL base []
    let u := urlsplitL url b.scheme
    if u.scheme ≠ b.scheme ∨ ¬ u.scheme ∈ usesRelative then url
    else if u.scheme ∈ usesNetloc ∧ u.netloc ≠ [] then urlunsplitL u
    else
      let netloc := if u.scheme ∈ usesNetloc then b.netloc else u.netloc
      if u.path = [] then
        let query := if u.query = [] then b.query else u.query
        urlunsplitL ⟨u.scheme, netloc, b.path, query, u.frag⟩
      else
        let baseParts :=
          let bp := b.path.splitOn '/'
          if bp.getLast? ≠ some [] then bp.dropLast else bp
        let segments :=
          if u.path.head? = some '/' then u.path.splitOn '/'
          else midFilter (baseParts ++ u.path.splitOn '/')
        let resolved := resolveSegs segments
        let resolved :=
          if segments.getLast? = some (sc "..") ∨ segments.getLast? = some (sc ".") then
            resolved ++ [[]]
          else resolved
        let joined := List.intercalate ['/'] resolved
        let path := if joined = [] then ['/'] else joined
        urlunsplitL ⟨u.scheme, netloc, path, u.query, u.frag⟩

/- ----------------------------------------------------------------- -/
/- The manifest rewriter (rewrite_m3u8_content / rewrite_url)         -/
/- ----------------------------------------------------------------- -/

/-- Python `str.replace old new`: left-to-right, non-overlapping, every
occurrence (fuelled recursion; one unit of fuel per consumed character). -/
def replGo (old new : Chars) : Nat → Chars → Chars
  | 0, s => s
  | _ + 1, [] => []
  | f + 1, c :: cs =>
    if old.isPrefixOf (c :: cs) then new ++ replGo old new f ((c :: cs).drop old.length)
    else c :: replGo old new f cs

def replAll (old new s : Chars) : Chars :=
  if old = [] then new ++ s.foldr (fun c acc => c :: (new ++ acc)) []
  else replGo old new s.length s

/-- Python truthiness of the optional referer string (`if referer:`). -/
def truthy : Option Chars → Option Chars
  | some r => if r = [] then none else some r
  | none => none

/-- The proxied URL built for one reference (main.py lines 94-96):
`proxy_path?url=absolute_url` with `&referer=referer` appended when the
referer is truthy.  No further encoding is applied. -/
def proxyUrlOf (proxy_path absolute_url : Chars) (referer : Option Chars) : Chars :=
  proxy_path ++ sc "?url=" ++ absolute_url ++
    (match truthy referer with
     | some r => sc "&referer=" ++ r
     | none => [])

/-- The three-way resolution of a raw URI (main.py lines 84-91): absolute
URLs pass through, `/`-paths are glued to the base scheme and netloc, and
anything else goes through `urljoin`. -/
def absoluteUrlOf (base_url url : Chars) : Chars :=
  if (sc "http://").isPrefixOf url ∨ (sc "https://").isPrefixOf url then url
  else if url.head? = some '/' then
    (urlsplitL base_url []).scheme ++ sc "://" ++ (urlsplitL base_url []).netloc ++ url
  else urljoinL base_url url

/-- The substitution applied to one regex match (main.py lines 80-98):
`match.group(0).replace(url, proxy_url)` with `url = match.group(1)`. -/
def rewrite_url (base_url proxy_path : Chars) (referer : Option Chars)
    (span grp : Chars) : Chars :=
  replAll grp (proxyUrlOf proxy_path (absoluteUrlOf base_url grp) referer) span

def litStreamInf : Chars := sc "#EXT-X-STREAM-INF:"
def litExtInf : Chars := sc "#EXTINF:"
def litMap : Chars := sc "#EXT-X-MAP:URI=\""
def litMedia : Chars := sc "#EXT-X-MEDIA:"
def litIFrame : Chars := sc "#EXT-X-I-FRAME-STREAM-INF:"
def litUriQ : Chars := sc "URI=\""

/-- A matcher returns `(span, group, rest)` for a match anchored at the start
of the input: `span` is `match.group(0)`, `group` is `match.group(1)` and
`rest` is the text after the match. -/
abbrev Matcher := Chars → Option (Chars × Chars × Chars)

/-- Pattern `TAG[^\n]*\n([^\n#]+)` (the `#EXT-X-STREAM-INF` / `#EXTINF`
directive followed by a non-comment line). -/
def matchTag (tag : Chars) : Matcher := fun s =>
  match dropLit tag s with
  | none => none
  | some rest =>
    let attrs := rest.takeWhile (fun c => c ≠ '\n')
    match rest.dropWhile (fun c => c ≠ '\n') with
    | [] => none
    | _ :: afterNl =>
      let uri := afterNl.takeWhile (fun c => ¬ (c = '\n' ∨ c = '#'))
      if uri = [] then none
      else some (tag ++ attrs ++ '\n' :: uri, uri,
                 afterNl.dropWhile (fun c => ¬ (c = '\n' ∨ c = '#')))

/-- Pattern `LIT([^"]+)"` where `LIT` ends with `URI="` (quoted attribute). -/
def matchQuoted (lit : Chars) : Matcher := fun s =>
  match dropLit lit s with
  | none => none
  | some rest =>
    let uri := rest.takeWhile (fun c => c ≠ '"')
    if uri = [] then none
    else
      match rest.dropWhile (fun c => c ≠ '"') with
      | [] => none
      | _ :: after => some (lit ++ uri ++ ['"'], uri, after)

/-- Greedy `.*URI="([^"]+)"`: the rightmost viable `URI="` on the current
line wins (the `.*` cannot cross a newline, the quoted group can). -/
def lastUriMatch : Chars → Option (Chars × Chars × Chars)
  | [] => none
  | c :: cs =>
    if c = '\n' then matchQuoted litUriQ (c :: cs)
    else
      match lastUriMatch cs with
      | some (sp, u, rest) => some (c :: sp, u, rest)
      | none => matchQuoted litUriQ (c :: cs)

/-- Pattern `LIT.*URI="([^"]+)"` (the `#EXT-X-MEDIA` and
`#EXT-X-I-FRAME-STREAM-INF` directives). -/
def matchAttr (lit : Chars) : Matcher := fun s =>
  match dropLit lit s with
  | none => none
  | some rest =>
    match lastUriMatch rest with
    | none => none
    | some (sp, u, r) => some (lit ++ sp, u, r)

/-- The five patterns of main.py lines 101-107, in order. -/
def theMatchers : List Matcher :=
  [matchTag litStreamInf, matchTag litExtInf, matchQuoted litMap,
   matchAttr litMedia, matchAttr litIFrame]

/-- The `re.sub` scan: at each position try the matcher; on a match, emit the
replacement and continue after the match, otherwise copy one character. -/
def rsubF (m : Matcher) (repl : Chars → Chars → Chars) : Nat → Chars → Chars
  | 0, s => s
  | _ + 1, [] => []
  | f + 1, c :: cs =>
    match m (c :: cs) with
    | some (sp, u, rest) => repl sp u ++ rsubF m repl f rest
    | none => c :: rsubF m repl f cs

def rsub (m : Matcher) (repl : Chars → Chars → Chars) (s : Chars) : Chars :=
  rsubF m repl s.length s

/-- main.py lines 70-113: apply the five patterns in sequence, each over the
output of the previous one. -/
def rewrite_m3u8_content (content base_url proxy_path : Chars)
    (referer : Option Chars) : Chars :=
  theMatchers.foldl (fun acc m => rsub m (rewrite_url base_url proxy_path referer) acc)
    content

/-- Number of occurrences (by start position) of a substring. -/
def countSub (n s : Chars) : Nat :=
  (s.tails.filter (fun t => n.isPrefixOf t)).length

/-- A scan decomposes its input into unmatched characters and matched spans. -/
inductive Seg where
  | raw : Char → Seg
  | hit : Chars → Chars → Seg
deriving DecidableEq

/-- The decomposition computed by the `re.sub` scan: same traversal as
`rsubF`, but recording the segments instead of substituting. -/
def segsF (m : Matcher) : Nat → Chars → List Seg
  | 0, s => s.map Seg.raw
  | _ + 1, [] => []
  | f + 1, c :: cs =>
    match m (c :: cs) with
    | some (sp, u, rest) => Seg.hit sp u :: segsF m f rest
    | none => Seg.raw c :: segsF m f cs

def segs (m : Matcher) (s : Chars) : List Seg := segsF m s.length s

def segOrig : Seg → Chars
  | .raw c => [c]
  | .hit sp _ => sp

def segOut (repl : Chars → Chars → Chars) : Seg → Chars
  | .raw c => [c]
  | .hit sp u => repl sp u

def joinL (l : List Chars) : Chars := l.foldr (fun a b => a ++ b) []

/-- The (span, group) pairs of the matches found by a scan. -/
def hitsOf (l : List Seg) : List (Chars × Chars) :=
  l.filterMap (fun sg => match sg with | .hit sp u => some (sp, u) | .raw _ => none)

/-- Soundness of a matcher: a match at the head of `s` consumes a nonempty
span that is a prefix of `s` and contains its nonempty captured group. -/
def MatcherOk (m : Matcher) : Prop :=
  ∀ s sp u rest, m s = some (sp, u, rest) →
    sp ++ rest = s ∧ sp ≠ [] ∧ u ≠ [] ∧ ∃ x y, sp = x ++ u ++ y

/-- All (span, group) pairs substituted across the five sequential passes of
`rewrite_m3u8_content`, each pass scanning the output of the previous one. -/
def allHits (content base_url proxy_path : Chars) (referer : Option Chars) :
    List (Chars × Chars) :=
  (theMatchers.foldl
    (fun acc m =>
      (rsub m (rewrite_url base_url proxy_path referer) acc.1,
       acc.2 ++ hitsOf (segs m acc.1)))
    (content, [])).2

/-- Newlines contributed by the referer once Python truthiness is applied. -/
def refNl (referer : Option Chars) : Nat :=
  match truthy referer with
  | some r => countC '\n' r
  | none => 0

/- ----------------------------------------------------------------- -/
/- Header policy, classifier and request handler                      -/
/- ----------------------------------------------------------------- -/

def bannedReq : List Chars :=
  [sc "host", sc "connection", sc "content-length", sc "content-encoding"]

def bannedResp : List Chars :=
  [sc "transfer-encoding", sc "content-encoding", sc "content-length"]

def uaString : Chars :=
  sc "Mozilla/5.0 (Windows NT 10.0; Win64; x64) AppleWebKit/537.36 (KHTML, like Gecko) Chrome/110.0.0.0 Safari/537.36"

/-- Python dict assignment `d[k] = v` on an association list: replace the
value at the existing key in place, else append.  (Python dict keys are
unique, so replacing the first occurrence models the assignment exactly.) -/
def dset : List (Chars × Chars) → Chars → Chars → List (Chars × Chars)
  | [], k, v => [(k, v)]
  | p :: ps, k, v => if p.1 = k then (k, v) :: ps else p :: dset ps k v

/-- Dict assignment with optional values (the outbound header dict briefly
holds `None` for Origin before the None-filter). -/
def dsetO : List (Chars × Option Chars) → Chars → Option Chars →
    List (Chars × Option Chars)
  | [], k, v => [(k, v)]
  | p :: ps, k, v => if p.1 = k then (k, v) :: ps else p :: dsetO ps k v

/-- First-match lookup in an association list (headers mapping). -/
def lookupH (hs : List (Chars × Chars)) (k : Chars) : Option Chars :=
  (hs.find? (fun p => p.1 == k)).map (fun p => p.2)

def lookupO (d : List (Chars × Option Chars)) (k : Chars) : Option (Option Chars) :=
  (d.find? (fun p => p.1 == k)).map (fun p => p.2)

/-- The final comprehension `{k: v for k, v in headers.items() if v is not None}`. -/
def dropNones (d : List (Chars × Option Chars)) : List (Chars × Chars) :=
  d.filterMap (fun p => p.2.map (fun v => (p.1, v)))

/-- Key uniqueness of an association list (every Python dict satisfies it). -/
def NodupKeys (d : List (Chars × Option Chars)) : Prop :=
  (d.map Prod.fst).Nodup

/-- Outbound request headers (main.py lines 32-55): copy the inbound headers
minus the transport-unsafe set, overlay Referer, then the fixed browser
fields with `Origin = urlparse(referer).netloc if referer else None`, and
drop entries whose value is None. -/
def buildOutHeaders (original : List (Chars × Chars)) (referer : Option Chars) :
    List (Chars × Chars) :=
  let h1 : List (Chars × Option Chars) :=
    original.foldl
      (fun d p => if bannedReq.contains (toLowerL p.1) then d else dsetO d p.1 (some p.2))
      []
  let h2 :=
    match truthy referer with
    | some r => dsetO h1 (sc "Referer") (some r)
    | none => h1
  let updates : List (Chars × Option Chars) :=
    [(sc "User-Agent", some uaString),
     (sc "Accept", some (sc "*/*")),
     (sc "Accept-Language", some (sc "en-US,en;q=0.9")),
     (sc "Origin", (truthy referer).map (fun r => (urlsplitL r []).netloc)),
     (sc "Connection", some (sc "keep-alive"))]
  let h3 := updates.foldl (fun d p => dsetO d p.1 p.2) h2
  dropNones h3

/-- Response headers (main.py lines 136-145): pass upstream headers through
minus the invalidated set, then set the three CORS headers. -/
def buildRespHeaders (upstream : List (Chars × Chars)) : List (Chars × Chars) :=
  let d :=
    upstream.foldl
      (fun d p => if bannedResp.contains (toLowerL p.1) then d else dset d p.1 p.2)
      []
  let d := dset d (sc "Access-Control-Allow-Origin") (sc "*")
  let d := dset d (sc "Access-Control-Allow-Methods") (sc "GET, OPTIONS")
  dset d (sc "Access-Control-Allow-Headers") (sc "*")

/-- Case-insensitive header lookup with `""` default, modelling
`response.headers.get('content-type', '')` of httpx. -/
def headersGetCI (hs : List (Chars × Chars)) (k : Chars) : Chars :=
  match hs.find? (fun p => toLowerL p.1 == k) with
  | some p => p.2
  | none => []

/-- The content classifier (main.py lines 130-134): content-type substring
match (case-insensitive) or `url.endswith('.m3u8')` on the full URL string. -/
def isM3u8 (contentType url : Chars) : Bool :=
  containsSub (sc "application/vnd.apple.mpegurl") (toLowerL contentType) ||
  containsSub (sc "application/x-mpegurl") (toLowerL contentType) ||
  (sc ".m3u8").isSuffixOf url

/-- main.py line 152: `url.rsplit('/', 1)[0] + '/' if '/' in url else url`,
i.e. everything up to and including the last slash. -/
def baseUrlOf (url : Chars) : Chars :=
  if url.contains '/' then (url.reverse.dropWhile (fun c => c ≠ '/')).reverse
  else url

/-- The classifier as the spec words it: a first-match-wins cascade, with
rule (b) taken over the full request URL string (the behaviour of the code;
the spec's "request URL's path" reading is refuted separately). -/
def classifierSpec (contentType url : Chars) : Bool :=
  if containsSub (sc "application/vnd.apple.mpegurl") (toLowerL contentType) then true
  else if containsSub (sc "application/x-mpegurl") (toLowerL contentType) then true
  else if (sc ".m3u8").isSuffixOf url then true
  else false

structure UpstreamResp where
  status : Nat
  headers : List (Chars × Chars)
  text : Chars
  chunks : List Chars
deriving DecidableEq

/-- Outcome of the network layer under the fetch: either a response handle or
an `httpx.RequestError` (connection refused, timeout, DNS or TLS failure)
carrying its message. -/
inductive FetchOutcome where
  | ok : UpstreamResp → FetchOutcome
  | requestError : Chars → FetchOutcome
deriving DecidableEq

structure HttpErr where
  status : Nat
  detail : Chars
deriving DecidableEq

/-- main.py lines 28-68: on a network-layer error the fetch raises
`HTTPException(502, "Error proxying request: ...")`. -/
def fetch_with_referer (outcome : FetchOutcome) : Except HttpErr UpstreamResp :=
  match outcome with
  | .ok r => .ok r
  | .requestError e => .error ⟨502, sc "Error proxying request: " ++ e⟩

inductive ProxyResult where
  | response : Nat → List (Chars × Chars) → Chars → ProxyResult
  | streaming : Nat → List (Chars × Chars) → List Chars → ProxyResult
deriving DecidableEq

def resultStatus : ProxyResult → Nat
  | .response st _ _ => st
  | .streaming st _ _ => st

def resultHeaders : ProxyResult → List (Chars × Chars)
  | .response _ hs _ => hs
  | .streaming _ hs _ => hs

instance {ε α : Type} [DecidableEq ε] [DecidableEq α] : DecidableEq (Except ε α)
  | .ok a, .ok b => decidable_of_iff (a = b) (by simp)
  | .error a, .error b => decidable_of_iff (a = b) (by simp)
  | .ok _, .error _ => isFalse (by simp)
  | .error _, .ok _ => isFalse (by simp)

/-- Models `str(e)` for the raised exception (status and detail text). -/
def errStr (e : HttpErr) : Chars := sc (Nat.repr e.status) ++ sc ": " ++ e.detail

/-- The /proxy handler (main.py lines 115-178).  The whole body sits in a
`try` block whose `except Exception` catches every exception — including the
502 `HTTPException` raised by the fetch — and re-raises
`HTTPException(500, "Proxy error: " + str(e))`. -/
def proxy_hls (outcome : FetchOutcome) (url : Chars) (referer : Option Chars)
    (proxy_path : Chars) : Except HttpErr ProxyResult :=
  let body : Except HttpErr ProxyResult := do
    let response ← fetch_with_referer outcome
    let is_m3u8 := isM3u8 (headersGetCI response.headers (sc "content-type")) url
    let headers := buildRespHeaders response.headers
    if is_m3u8 then
      let base_url := baseUrlOf url
      let rewritten := rewrite_m3u8_content response.text base_url proxy_path referer
      pure (.response response.status headers rewritten)
    else
      pure (.streaming response.status headers response.chunks)
  match body with
  | .ok r => .ok r
  | .error e => .error ⟨500, sc "Proxy error: " ++ errStr e⟩

/- ----------------------------------------------------------------- -/
/- Theorems                                                           -/
/- ----------------------------------------------------------------- -/

theorem isPrefixOf_iff_exists (n s : Chars) :
    n.isPrefixOf s = true ↔ ∃ t, s = n ++ t := by
  rw [List.isPrefixOf_iff_prefix]
  constructor
  · rintro ⟨t, ht⟩; exact ⟨t, ht.symm⟩
  · rintro ⟨t, ht⟩; exact ⟨t, ht.symm⟩

theorem isPrefixOf_self_append (n t : Chars) : n.isPrefixOf (n ++ t) = true :=
  (isPrefixOf_iff_exists n (n ++ t)).2 ⟨t, rfl⟩

theorem dropLit_sound : ∀ (l s r : Chars), dropLit l s = some r → s = l ++ r := by
  intro l
  induction l with
  | nil => intro s r h; simp [dropLit] at h; simp [h]
  | cons l0 ls ih =>
    intro s r h
    cases s with
    | nil => simp [dropLit] at h
    | cons c cs =>
      by_cases hc : c = l0
      · simp [dropLit, hc] at h
        simp [hc, ih cs r h]
      · simp [dropLit, hc] at h

theorem dropLit_self_append (l r : Chars) : dropLit l (l ++ r) = some r := by
  induction l with
  | nil => simp [dropLit]
  | cons l0 ls ih => simp [dropLit, ih]

theorem containsSub_cons (n : Chars) (x : Char) (s : Chars) :
    containsSub n (x :: s) = (n.isPrefixOf (x :: s) || containsSub n s) := by
  simp [containsSub, List.tails_cons]

theorem isPrefixOf_append_cons (n : Chars) (c : Char) (hc : c ∉ n) :
    ∀ (a b : Chars), n.isPrefixOf (a ++ c :: b) = n.isPrefixOf a := by
  induction n with
  | nil => intro a b; simp [List.isPrefixOf]
  | cons n0 n' ih =>
    intro a b
    cases a with
    | nil =>
      have : ¬ (n0 == c) = true := by
        intro h
        exact hc (by simp at h; simp [h, List.mem_cons])
      simp [List.isPrefixOf, this]
    | cons a0 a' =>
      have hc' : c ∉ n' := fun h => hc (List.mem_cons_of_mem _ h)
      simp [List.isPrefixOf, ih hc' a' b]

theorem containsSub_nil (n : Chars) : containsSub n [] = n.isPrefixOf [] := by
  simp [containsSub, List.tails]

theorem containsSub_append_cons (n : Chars) (c : Char) (hc : c ∉ n) :
    ∀ (a b : Chars), containsSub n (a ++ c :: b) = (containsSub n a || containsSub n b) := by
  intro a
  induction a with
  | nil =>
    intro b
    cases n with
    | nil => simp [containsSub_cons, containsSub_nil, List.isPrefixOf]
    | cons n0 n' =>
      have hne : ¬ (n0 == c) = true := by
        intro h
        exact hc (by simp at h; simp [h])
      have hh : List.isPrefixOf (n0 :: n') (c :: b) = false := by
        simp only [List.isPrefixOf, Bool.and_eq_false_iff]
        left
        cases hb : (n0 == c) <;> simp_all
      have h0 : containsSub (n0 :: n') [] = false := by
        simp [containsSub_nil, List.isPrefixOf]
      simp [containsSub_cons, hh, h0]
  | cons a0 a' ih =>
    intro b
    have e1 : List.isPrefixOf n (a0 :: (a' ++ c :: b)) = List.isPrefixOf n (a0 :: a') :=
      isPrefixOf_append_cons n c hc (a0 :: a') b
    rw [List.cons_append, containsSub_cons, ih b, e1, containsSub_cons, Bool.or_assoc]

theorem OccursIn_iff (n s : Chars) : OccursIn n s ↔ containsSub n s = true := by
  constructor
  · rintro ⟨a, b, rfl⟩
    have h1 : (n ++ b) ∈ (a ++ n ++ b).tails := by
      rw [List.mem_tails, List.append_assoc]
      exact ⟨a, rfl⟩
    simp only [containsSub, List.any_eq_true]
    exact ⟨n ++ b, h1, isPrefixOf_self_append n b⟩
  · intro h
    simp only [containsSub, List.any_eq_true] at h
    obtain ⟨t, ht, hp⟩ := h
    obtain ⟨a, ha⟩ := (List.mem_tails _ _).1 ht
    obtain ⟨b, hb⟩ := (isPrefixOf_iff_exists _ _).1 hp
    exact ⟨a, b, by rw [← ha, hb, List.append_assoc]⟩

/-- Fuel irrelevance for the `str.replace` scan: any fuel at least the
length of the input gives the same result. -/
theorem replGo_fuel (old new : Chars) (ho : old ≠ []) :
    ∀ (f g : Nat) (s : Chars), s.length ≤ f → s.length ≤ g →
      replGo old new f s = replGo old new g s := by
  intro f
  induction f with
  | zero =>
    intro g s hf _
    have : s = [] := List.eq_nil_of_length_eq_zero (Nat.le_zero.1 hf)
    subst this
    cases g <;> simp [replGo]
  | succ f' ih =>
    intro g s hf hg
    cases s with
    | nil => cases g <;> simp [replGo]
    | cons c cs =>
      cases g with
      | zero => simp at hg
      | succ g' =>
        have hf1 : cs.length + 1 ≤ f' + 1 := by simpa using hf
        have hg1 : cs.length + 1 ≤ g' + 1 := by simpa using hg
        cases hp : old.isPrefixOf (c :: cs) with
        | true =>
          obtain ⟨t, ht⟩ := (isPrefixOf_iff_exists _ _).1 hp
          have hol : 1 ≤ old.length := List.length_pos.2 ho
          have hct : cs.length + 1 = old.length + t.length := by
            have := congrArg List.length ht
            simpa using this
          have hd : (c :: cs).drop old.length = t := by rw [ht, List.drop_left]
          have h1 : t.length ≤ f' := by omega
          have h2 : t.length ≤ g' := by omega
          simp only [replGo, hp, if_true, hd]
          rw [ih g' t h1 h2]
        | false =>
          have h1 : cs.length ≤ f' := by omega
          have h2 : cs.length ≤ g' := by omega
          simp only [replGo, hp, Bool.false_eq_true, if_false]
          rw [ih g' cs h1 h2]

theorem replAll_cons_no_match (old new : Chars) (ho : old ≠ []) (c : Char) (cs : Chars)
    (h : old.isPrefixOf (c :: cs) = false) :
    replAll old new (c :: cs) = c :: replAll old new cs := by
  simp only [replAll, ho, if_neg, List.length_cons]
  have e1 : replGo old new (cs.length + 1) (c :: cs) = c :: replGo old new cs.length cs := by
    simp [replGo, h]
  simp [if_neg ho, e1]

theorem replGo_succ_cons (old new : Chars) (f : Nat) (c : Char) (cs : Chars) :
    replGo old new (f + 1) (c :: cs) =
      if old.isPrefixOf (c :: cs) = true then
        new ++ replGo old new f ((c :: cs).drop old.length)
      else c :: replGo old new f cs := rfl

theorem replAll_head_match (old new t : Chars) (ho : old ≠ []) :
    replAll old new (old ++ t) = new ++ replAll old new t := by
  have hol : 0 < old.length := List.length_pos.2 ho
  obtain ⟨c, cs, hcs⟩ : ∃ c cs, old ++ t = c :: cs := by
    cases h : old ++ t with
    | nil =>
      cases old with
      | nil => exact absurd rfl ho
      | cons o os => simp at h
    | cons c cs => exact ⟨c, cs, rfl⟩
  have hp : old.isPrefixOf (c :: cs) = true := hcs ▸ isPrefixOf_self_append old t
  have hle : cs.length + 1 = old.length + t.length := by
    have := congrArg List.length hcs
    simp at this
    omega
  have hd : (c :: cs).drop old.length = t := by rw [← hcs, List.drop_left]
  rw [replAll, if_neg ho, hcs, List.length_cons, replGo_succ_cons, if_pos hp, hd,
    replAll, if_neg ho]
  congr 1
  exact replGo_fuel old new ho cs.length t.length t (by omega) (le_refl _)

/-- When no occurrence of `old` starts anywhere in `s`, `str.replace` is the
identity. -/
theorem replAll_id (old new : Chars) (ho : old ≠ []) :
    ∀ (s : Chars), (∀ i, i < s.length → old.isPrefixOf (s.drop i) = false) →
      replAll old new s = s := by
  intro s
  induction s with
  | nil => intro _; simp [replAll, ho, replGo]
  | cons c cs ih =>
    intro h
    have h0 : old.isPrefixOf (c :: cs) = false := by simpa using h 0 (by simp)
    rw [replAll_cons_no_match old new ho c cs h0, ih ?_]
    intro i hi
    have := h (i + 1) (by simp; omega)
    simpa using this

/-- When the first occurrence of `old` is the one displayed in `a ++ old ++ b`
(no occurrence starts inside `a`), `str.replace` substitutes it and recurses
on `b`, keeping `a` byte-identical. -/
theorem replAll_split (old new : Chars) (ho : old ≠ []) :
    ∀ (a b : Chars),
      (∀ i, i < a.length → old.isPrefixOf ((a ++ old ++ b).drop i) = false) →
      replAll old new (a ++ old ++ b) = a ++ new ++ replAll old new b := by
  intro a
  induction a with
  | nil =>
    intro b _
    simpa using replAll_head_match old new b ho
  | cons c a' ih =>
    intro b h
    have h0 : old.isPrefixOf (c :: (a' ++ old ++ b)) = false := by
      simpa using h 0 (by simp)
    have e : (c :: a') ++ old ++ b = c :: (a' ++ old ++ b) := by simp
    rw [e, replAll_cons_no_match old new ho _ _ h0, ih b ?_]
    · simp
    · intro i hi
      have := h (i + 1) (by simp; omega)
      simpa using this

/-- Whenever `old` occurs in the input, the replacement text occurs in the
output of `str.replace`. -/
theorem replAll_occurs_new (old new : Chars) (ho : old ≠ []) :
    ∀ (x y : Chars), OccursIn new (replAll old new (x ++ old ++ y)) := by
  intro x
  induction x with
  | nil =>
    intro y
    have e : ([] : Chars) ++ old ++ y = old ++ y := by simp
    rw [e, replAll_head_match old new y ho]
    exact ⟨[], replAll old new y, rfl⟩
  | cons c x' ih =>
    intro y
    have e : (c :: x') ++ old ++ y = c :: (x' ++ old ++ y) := by simp
    rw [e]
    cases hp : old.isPrefixOf (c :: (x' ++ old ++ y)) with
    | true =>
      obtain ⟨t, ht⟩ := (isPrefixOf_iff_exists _ _).1 hp
      rw [ht, replAll_head_match old new t ho]
      exact ⟨[], replAll old new t, rfl⟩
    | false =>
      rw [replAll_cons_no_match old new ho _ _ hp]
      obtain ⟨p, q, hpq⟩ := ih y
      exact ⟨c :: p, q, by rw [hpq]; simp⟩

theorem countC_append (c : Char) (a b : Chars) :
    countC c (a ++ b) = countC c a + countC c b := by
  simp [countC]

/-- Python `str.replace` preserves the count of any character whose count agrees
between the old and new text. -/
theorem countC_replGo (old new : Chars) (c : Char) (ho : old ≠ [])
    (hc : countC c new = countC c old) :
    ∀ (f : Nat) (s : Chars), s.length ≤ f →
      countC c (replGo old new f s) = countC c s := by
  intro f
  induction f with
  | zero =>
    intro s h
    have : s = [] := List.eq_nil_of_length_eq_zero (Nat.le_zero.1 h)
    subst this
    simp [replGo]
  | succ f' ih =>
    intro s h
    cases s with
    | nil => simp [replGo]
    | cons d ds =>
      have hlen : ds.length + 1 ≤ f' + 1 := by simpa using h
      cases hp : old.isPrefixOf (d :: ds) with
      | true =>
        obtain ⟨t, ht⟩ := (isPrefixOf_iff_exists _ _).1 hp
        have hol : 1 ≤ old.length := List.length_pos.2 ho
        have hct : ds.length + 1 = old.length + t.length := by
          have := congrArg List.length ht
          simpa using this
        have hd : (d :: ds).drop old.length = t := by rw [ht, List.drop_left]
        rw [replGo_succ_cons, if_pos hp, hd, countC_append,
          ih t (by omega), ht, countC_append, hc]
      | false =>
        have e1 : countC c (replGo old new (f' + 1) (d :: ds)) =
            countC c (d :: replGo old new f' ds) := by
          rw [replGo_succ_cons, if_neg (by simp [hp])]
        have e2 := ih ds (by omega)
        rw [e1]
        simp only [countC] at e2 ⊢
        simp [List.count_cons, e2]

theorem countC_replAll (old new : Chars) (c : Char) (ho : old ≠ [])
    (hc : countC c new = countC c old) (s : Chars) :
    countC c (replAll old new s) = countC c s := by
  rw [replAll, if_neg ho]
  exact countC_replGo old new c ho hc s.length s (le_refl _)

theorem joinL_cons (a : Chars) (l : List Chars) : joinL (a :: l) = a ++ joinL l := rfl

theorem countC_joinL (c : Char) : ∀ (l : List Chars),
    countC c (joinL l) = (l.map (countC c)).sum := by
  intro l
  induction l with
  | nil => simp [joinL, countC]
  | cons a l ih => simp [joinL_cons, countC_append, ih]

theorem dropWhile_head_false {p : Char → Bool} :
    ∀ (l : Chars) (c : Char) (r : Chars), l.dropWhile p = c :: r → p c = false := by
  intro l
  induction l with
  | nil => intro c r h; simp [List.dropWhile] at h
  | cons x xs ih =>
    intro c r h
    cases hx : p x with
    | true =>
      rw [List.dropWhile_cons, if_pos (by simp [hx])] at h
      exact ih c r h
    | false =>
      rw [List.dropWhile_cons, if_neg (by simp [hx])] at h
      injection h with h1 _
      rw [← h1]
      exact hx

theorem matchTag_ok (tag : Chars) (ht : tag ≠ []) : MatcherOk (matchTag tag) := by
  intro s sp u rest h
  simp only [matchTag] at h
  split at h
  · exact absurd h (by simp)
  next r0 hd =>
    split at h
    · exact absurd h (by simp)
    next d afterNl hw =>
      split at h
      · exact absurd h (by simp)
      next hu =>
        have hs : s = tag ++ r0 := dropLit_sound tag s r0 hd
        have hd' : d = '\n' := by
          have := dropWhile_head_false r0 d afterNl hw
          simpa using this
        have hr0 : r0 = r0.takeWhile (fun c => c ≠ '\n') ++ ('\n' :: afterNl) := by
          conv_lhs => rw [← List.takeWhile_append_dropWhile (p := fun c => c ≠ '\n') (l := r0)]
          rw [hw, hd']
        have ha : afterNl = afterNl.takeWhile (fun c => ¬ (c = '\n' ∨ c = '#')) ++
            afterNl.dropWhile (fun c => ¬ (c = '\n' ∨ c = '#')) :=
          (List.takeWhile_append_dropWhile _ _).symm
        injection h with h'
        obtain ⟨hsp, hu', hrest⟩ : tag ++ r0.takeWhile (fun c => c ≠ '\n') ++
            '\n' :: afterNl.takeWhile (fun c => ¬ (c = '\n' ∨ c = '#')) = sp ∧
            afterNl.takeWhile (fun c => ¬ (c = '\n' ∨ c = '#')) = u ∧
            afterNl.dropWhile (fun c => ¬ (c = '\n' ∨ c = '#')) = rest := by
          have := h'
          simp only [Prod.mk.injEq] at this
          exact ⟨this.1, this.2.1, this.2.2⟩
        refine ⟨?_, ?_, ?_, ?_⟩
        · rw [← hsp, ← hrest, hs]
          conv_rhs => rw [hr0]
          rw [ha]
          simp
        · rw [← hsp]
          cases tag with
          | nil => exact absurd rfl ht
          | cons a b => simp
        · rw [← hu']
          exact hu
        · exact ⟨tag ++ r0.takeWhile (fun c => c ≠ '\n') ++ ['\n'], [],
            by rw [← hsp, ← hu']; simp⟩

theorem matchQuoted_ok (lit : Chars) (hl : lit ≠ []) : MatcherOk (matchQuoted lit) := by
  intro s sp u rest h
  simp only [matchQuoted] at h
  split at h
  · exact absurd h (by simp)
  next r0 hd =>
    split at h
    · exact absurd h (by simp)
    next hu =>
      split at h
      · exact absurd h (by simp)
      next d after hw =>
        have hs : s = lit ++ r0 := dropLit_sound lit s r0 hd
        have hd' : d = '"' := by
          have := dropWhile_head_false r0 d after hw
          simpa using this
        have hr0 : r0 = r0.takeWhile (fun c => c ≠ '"') ++ ('"' :: after) := by
          conv_lhs => rw [← List.takeWhile_append_dropWhile (p := fun c => c ≠ '"') (l := r0)]
          rw [hw, hd']
        injection h with h'
        obtain ⟨hsp, hu', hrest⟩ : lit ++ r0.takeWhile (fun c => c ≠ '"') ++ ['"'] = sp ∧
            r0.takeWhile (fun c => c ≠ '"') = u ∧ after = rest := by
          have := h'
          simp only [Prod.mk.injEq] at this
          exact ⟨this.1, this.2.1, this.2.2⟩
        refine ⟨?_, ?_, ?_, ?_⟩
        · rw [← hsp, ← hrest, hs]
          conv_rhs => rw [hr0]
          simp
        · rw [← hsp]
          cases lit with
          | nil => exact absurd rfl hl
          | cons a b => simp
        · rw [← hu']
          exact hu
        · exact ⟨lit, ['"'], by rw [← hsp, ← hu']⟩

theorem lastUriMatch_ok :
    ∀ (s sp u rest : Chars), lastUriMatch s = some (sp, u, rest) →
      sp ++ rest = s ∧ sp ≠ [] ∧ u ≠ [] ∧ ∃ x y, sp = x ++ u ++ y := by
  intro s
  induction s with
  | nil => intro sp u rest h; simp [lastUriMatch] at h
  | cons c cs ih =>
    intro sp u rest h
    have hq : MatcherOk (matchQuoted litUriQ) := matchQuoted_ok litUriQ (by decide)
    simp only [lastUriMatch] at h
    split at h
    · exact hq _ _ _ _ h
    · split at h
      next sp' u' rest' hm =>
        injection h with h'
        obtain ⟨hsp, hu', hrest⟩ : c :: sp' = sp ∧ u' = u ∧ rest' = rest := by
          have := h'
          simp only [Prod.mk.injEq] at this
          exact ⟨this.1, this.2.1, this.2.2⟩
        obtain ⟨h1, _, h3, x, y, hxy⟩ := ih sp' u' rest' hm
        refine ⟨?_, ?_, ?_, ?_⟩
        · rw [← hsp, ← hrest]
          simp [h1]
        · rw [← hsp]; simp
        · rw [← hu']; exact h3
        · exact ⟨c :: x, y, by rw [← hsp, ← hu', hxy]; simp⟩
      next hm => exact hq _ _ _ _ h

theorem matchAttr_ok (lit : Chars) (hl : lit ≠ []) : MatcherOk (matchAttr lit) := by
  intro s sp u rest h
  simp only [matchAttr] at h
  split at h
  · exact absurd h (by simp)
  next r0 hd =>
    split at h
    · exact absurd h (by simp)
    next sp' u' r' hm =>
      have hs : s = lit ++ r0 := dropLit_sound lit s r0 hd
      injection h with h'
      obtain ⟨hsp, hu', hrest⟩ : lit ++ sp' = sp ∧ u' = u ∧ r' = rest := by
        have := h'
        simp only [Prod.mk.injEq] at this
        exact ⟨this.1, this.2.1, this.2.2⟩
      obtain ⟨h1, _, h3, x, y, hxy⟩ := lastUriMatch_ok r0 sp' u' r' hm
      refine ⟨?_, ?_, ?_, ?_⟩
      · rw [← hsp, ← hrest, hs, ← h1]
        simp
      · rw [← hsp]
        cases lit with
        | nil => exact absurd rfl hl
        | cons a b => simp
      · rw [← hu']; exact h3
      · exact ⟨lit ++ x, y, by rw [← hsp, ← hu', hxy]; simp⟩

theorem allMatchersOk : ∀ m ∈ theMatchers, MatcherOk m := by
  intro m hm
  simp only [theMatchers, List.mem_cons, List.not_mem_nil, or_false] at hm
  rcases hm with rfl | rfl | rfl | rfl | rfl
  · exact matchTag_ok litStreamInf (by decide)
  · exact matchTag_ok litExtInf (by decide)
  · exact matchQuoted_ok litMap (by decide)
  · exact matchAttr_ok litMedia (by decide)
  · exact matchAttr_ok litIFrame (by decide)

theorem hitsOf_hit (sp u : Chars) (l : List Seg) :
    hitsOf (Seg.hit sp u :: l) = (sp, u) :: hitsOf l := rfl

theorem hitsOf_raw (c : Char) (l : List Seg) : hitsOf (Seg.raw c :: l) = hitsOf l := rfl

theorem joinL_map_single : ∀ (s : Chars), joinL (s.map (fun c => [c])) = s := by
  intro s
  induction s with
  | nil => rfl
  | cons c cs ih => simp [joinL_cons, ih]

/-- The segments reassemble to the scanned text. -/
theorem segsF_orig (m : Matcher) (hm : MatcherOk m) :
    ∀ (f : Nat) (s : Chars), s.length ≤ f →
      joinL ((segsF m f s).map segOrig) = s := by
  intro f
  induction f with
  | zero =>
    intro s h
    have : s = [] := List.eq_nil_of_length_eq_zero (Nat.le_zero.1 h)
    subst this
    rfl
  | succ f' ih =>
    intro s hlen
    cases s with
    | nil => rfl
    | cons d ds =>
      have hl : ds.length + 1 ≤ f' + 1 := by simpa using hlen
      cases hm' : m (d :: ds) with
      | none =>
        simp only [segsF, hm', List.map_cons, joinL_cons, segOrig]
        rw [ih ds (by omega)]
        simp
      | some trip =>
        obtain ⟨sp, u, rest⟩ := trip
        obtain ⟨hsr, hspne, _, _⟩ := hm _ _ _ _ hm'
        have hrl : rest.length ≤ f' := by
          have := congrArg List.length hsr
          have hsl : 1 ≤ sp.length := List.length_pos.2 hspne
          simp at this
          omega
        simp only [segsF, hm', List.map_cons, joinL_cons, segOrig]
        rw [ih rest hrl, hsr]

/-- The `re.sub` scan output is the reassembly of the segments with each
matched span replaced. -/
theorem rsubF_eq_joinL (m : Matcher) (repl : Chars → Chars → Chars) :
    ∀ (f : Nat) (s : Chars),
      rsubF m repl f s = joinL ((segsF m f s).map (segOut repl)) := by
  intro f
  induction f with
  | zero =>
    intro s
    simp only [rsubF, segsF, List.map_map]
    have : (segOut repl) ∘ Seg.raw = fun c => [c] := by
      funext c
      rfl
    rw [this, joinL_map_single]
  | succ f' ih =>
    intro s
    cases s with
    | nil => rfl
    | cons d ds =>
      cases hm' : m (d :: ds) with
      | none =>
        simp only [rsubF, segsF, hm', List.map_cons, joinL_cons, segOut, ih]
        simp
      | some trip =>
        obtain ⟨sp, u, rest⟩ := trip
        simp only [rsubF, segsF, hm', List.map_cons, joinL_cons, segOut, ih]

/-- A scan over text in which no position matches is the identity. -/
theorem rsubF_id (m : Matcher) (repl : Chars → Chars → Chars) :
    ∀ (f : Nat) (s : Chars), (∀ t ∈ s.tails, m t = none) → rsubF m repl f s = s := by
  intro f
  induction f with
  | zero => intro s _; rfl
  | succ f' ih =>
    intro s h
    cases s with
    | nil => rfl
    | cons c cs =>
      have h0 : m (c :: cs) = none := by
        apply h
        rw [List.tails_cons]
        exact List.mem_cons_self _ _
      simp only [rsubF, h0]
      rw [ih cs ?_]
      intro t ht
      apply h
      rw [List.tails_cons]
      exact List.mem_cons_of_mem _ ht

theorem rsub_id (m : Matcher) (repl : Chars → Chars → Chars) (s : Chars)
    (h : ∀ t ∈ s.tails, m t = none) : rsub m repl s = s :=
  rsubF_id m repl s.length s h

/-- Character-count preservation across one scan, given that every
substitution preserves the count. -/
theorem countC_rsubF (m : Matcher) (hm : MatcherOk m)
    (repl : Chars → Chars → Chars) (c : Char) :
    ∀ (f : Nat) (s : Chars), s.length ≤ f →
      (∀ p ∈ hitsOf (segsF m f s), countC c (repl p.1 p.2) = countC c p.1) →
      countC c (rsubF m repl f s) = countC c s := by
  intro f
  induction f with
  | zero => intro s _ _; rfl
  | succ f' ih =>
    intro s hlen hh
    cases s with
    | nil => rfl
    | cons d ds =>
      have hl : ds.length + 1 ≤ f' + 1 := by simpa using hlen
      cases hm' : m (d :: ds) with
      | none =>
        have e := ih ds (by omega) (by
          intro p hp
          apply hh
          simp only [segsF, hm', hitsOf_raw]
          exact hp)
        simp only [rsubF, hm']
        simp only [countC, List.count_cons] at e ⊢
        simp [e]
      | some trip =>
        obtain ⟨sp, u, rest⟩ := trip
        obtain ⟨hsr, hspne, _, _⟩ := hm _ _ _ _ hm'
        have hrl : rest.length ≤ f' := by
          have := congrArg List.length hsr
          have hsl : 1 ≤ sp.length := List.length_pos.2 hspne
          simp at this
          omega
        have hhead : countC c (repl sp u) = countC c sp := by
          have := hh (sp, u) (by
            simp only [segsF, hm', hitsOf_hit]
            exact List.mem_cons_self _ _)
          simpa using this
        have htail := ih rest hrl (by
          intro p hp
          apply hh
          simp only [segsF, hm', hitsOf_hit]
          exact List.mem_cons_of_mem _ hp)
        simp only [rsubF, hm']
        rw [countC_append, hhead, htail, ← countC_append, hsr]

/-- Every recorded hit arises from an actual match of the scanner. -/
theorem hitsOf_segsF_sound (m : Matcher) :
    ∀ (f : Nat) (s : Chars) (p : Chars × Chars), p ∈ hitsOf (segsF m f s) →
      ∃ s' rest, m s' = some (p.1, p.2, rest) := by
  intro f
  induction f with
  | zero =>
    intro s p hp
    exfalso
    induction s with
    | nil => simp [segsF, hitsOf] at hp
    | cons c cs ihs =>
      simp only [segsF, List.map_cons, hitsOf_raw] at hp ihs
      exact ihs (by simpa [segsF] using hp)
  | succ f' ih =>
    intro s p hp
    cases s with
    | nil => simp [segsF, hitsOf] at hp
    | cons d ds =>
      cases hm' : m (d :: ds) with
      | none =>
        simp only [segsF, hm', hitsOf_raw] at hp
        exact ih ds p hp
      | some trip =>
        obtain ⟨sp, u, rest⟩ := trip
        simp only [segsF, hm', hitsOf_hit, List.mem_cons] at hp
        cases hp with
        | inl h => exact ⟨d :: ds, rest, by rw [hm', h]⟩
        | inr h => exact ih rest p h

/-- Splitting a directive line at its first newline when the attribute text
is newline-free. -/
theorem splitNl (attrs : Chars) (h : '\n' ∉ attrs) (xs : Chars) :
    (attrs ++ '\n' :: xs).takeWhile (fun c => c ≠ '\n') = attrs ∧
    (attrs ++ '\n' :: xs).dropWhile (fun c => c ≠ '\n') = '\n' :: xs := by
  induction attrs with
  | nil => simp [List.takeWhile, List.dropWhile]
  | cons a as ih =>
    have ha : a ≠ '\n' := fun e => h (by simp [e])
    have h' : '\n' ∉ as := fun e => h (List.mem_cons_of_mem _ e)
    obtain ⟨ih1, ih2⟩ := ih h'
    constructor
    · simp only [List.cons_append, List.takeWhile_cons]
      rw [if_pos (by simp [ha]), ih1]
    · simp only [List.cons_append, List.dropWhile_cons]
      rw [if_pos (by simp [ha]), ih2]

theorem dropWhile_all_keep (attrs : Chars) (h : '\n' ∉ attrs) :
    attrs.dropWhile (fun c => c ≠ '\n') = [] := by
  induction attrs with
  | nil => rfl
  | cons a as ih =>
    have ha : a ≠ '\n' := fun e => h (by simp [e])
    have h' : '\n' ∉ as := fun e => h (List.mem_cons_of_mem _ e)
    rw [List.dropWhile_cons, if_pos (by simp [ha]), ih h']

/-- A `#EXT-X-STREAM-INF`/`#EXTINF` occurrence whose next line is itself a
directive (`#`-prefixed) is not matched. -/
theorem matchTag_none_comment (tag attrs rest : Chars) (h : '\n' ∉ attrs) :
    matchTag tag (tag ++ attrs ++ '\n' :: '#' :: rest) = none := by
  have e : tag ++ attrs ++ '\n' :: '#' :: rest =
      tag ++ (attrs ++ '\n' :: '#' :: rest) := by simp
  rw [e]
  simp only [matchTag, dropLit_self_append]
  rw [(splitNl attrs h ('#' :: rest)).2]
  simp [List.takeWhile]

/-- A directive at the end of the document with no following line at all is
not matched. -/
theorem matchTag_none_eof (tag attrs : Chars) (h : '\n' ∉ attrs) :
    matchTag tag (tag ++ attrs) = none := by
  simp only [matchTag, dropLit_self_append]
  rw [dropWhile_all_keep attrs h]

/-- A directive followed by a final newline and nothing else is not
matched. -/
theorem matchTag_none_trailing (tag attrs : Chars) (h : '\n' ∉ attrs) :
    matchTag tag (tag ++ attrs ++ ['\n']) = none := by
  have e : tag ++ attrs ++ ['\n'] = tag ++ (attrs ++ '\n' :: []) := by simp
  rw [e]
  simp only [matchTag, dropLit_self_append]
  rw [(splitNl attrs h []).2]
  simp [List.takeWhile]

/-- Evaluation of the handler on a successful fetch: classify, then either
rewrite-and-respond or stream, relaying the upstream status. -/
theorem proxy_hls_ok_eval (r : UpstreamResp) (url : Chars) (referer : Option Chars)
    (pp : Chars) :
    proxy_hls (.ok r) url referer pp =
      .ok (if isM3u8 (headersGetCI r.headers (sc "content-type")) url then
             ProxyResult.response r.status (buildRespHeaders r.headers)
               (rewrite_m3u8_content r.text (baseUrlOf url) pp referer)
           else ProxyResult.streaming r.status (buildRespHeaders r.headers) r.chunks) := by
  by_cases c : isM3u8 (headersGetCI r.headers (sc "content-type")) url = true
  · simp [proxy_hls, fetch_with_referer, c, bind, Except.bind, pure, Except.pure]
  · simp [proxy_hls, fetch_with_referer, c, bind, Except.bind, pure, Except.pure]

/-- C1.  The fetch does fail with a distinct 502-class `HTTPException` on a
network-layer error, but that exception is raised inside the handler's
`try` block, whose `except Exception` catches it and re-raises a 500-class
`HTTPException`.  The 502 therefore never leaves the handler: for every
request whose upstream fetch fails with a network-layer error the client
receives a 500, contradicting the claim that the 502-class failure is
surfaced unchanged.  The closed conjunct evaluates the handler at a concrete
failing input; the quantified conjunct shows every network-layer failure is
converted to status 500. -/
theorem C1_upstream_error_reported_as_500 :
    (fetch_with_referer (.requestError (sc "connection refused")) =
      .error ⟨502, sc "Error proxying request: connection refused"⟩ ∧
     proxy_hls (.requestError (sc "connection refused")) (sc "http://h/a.m3u8") none
        (sc "http://p/proxy") =
      .error ⟨500, sc "Proxy error: 502: Error proxying request: connection refused"⟩) ∧
    ∀ msg url referer pp,
      proxy_hls (.requestError msg) url referer pp =
        .error ⟨500, sc "Proxy error: " ++
                      errStr ⟨502, sc "Error proxying request: " ++ msg⟩⟩ := by
  exact ⟨by decide, fun msg url referer pp => rfl⟩

/-- C3 counterexample.  For the request URL `http://h/a.m3u8?t=1` with
content-type `video/mp2t`, neither content-type rule fires and the URL's
path component does end with `.m3u8`, so the claim classifies the response
as a playlist; the code tests `url.endswith('.m3u8')` on the full URL string
(which ends in `?t=1`) and classifies it as a binary segment. -/
theorem C3_counterexample :
    isM3u8 (sc "video/mp2t") (sc "http://h/a.m3u8?t=1") = false ∧
    (sc ".m3u8").isSuffixOf (urlsplitL (sc "http://h/a.m3u8?t=1") []).path = true ∧
    containsSub (sc "application/vnd.apple.mpegurl") (toLowerL (sc "video/mp2t")) = false ∧
    containsSub (sc "application/x-mpegurl") (toLowerL (sc "video/mp2t")) = false := by
  decide

/-- C3 amended.  The classifier returns playlist iff the content-type
contains one of the two playlist MIME types as a case-insensitive substring,
or otherwise the full request URL string — including any query string, not
the URL's path — ends with `.m3u8`; rule (a) is evaluated before rule (b),
and in all other cases the response is a binary segment.  Stated as
equivalence of the code's disjunction with the spec's first-match-wins
cascade. -/
theorem C3_classifier_full_url :
    ∀ contentType url, isM3u8 contentType url = classifierSpec contentType url := by
  intro ct url
  unfold isM3u8 classifierSpec
  cases h1 : containsSub (sc "application/vnd.apple.mpegurl") (toLowerL ct) <;>
    cases h2 : containsSub (sc "application/x-mpegurl") (toLowerL ct) <;>
    cases h3 : (sc ".m3u8").isSuffixOf url <;> simp

/-- C10.  When the upstream fetch succeeds, the handler relays the upstream
status code unchanged in both branches: the playlist branch returns a
buffered response and the segment branch a streamed response, each carrying
`response.status_code`, with non-2xx statuses relayed as-is (rewriting or
streaming still applied) rather than mapped to a proxy-generated error. -/
theorem C10_status_passthrough (r : UpstreamResp) (url : Chars)
    (referer : Option Chars) (pp : Chars) :
    proxy_hls (.ok r) url referer pp =
      .ok (if isM3u8 (headersGetCI r.headers (sc "content-type")) url then
             ProxyResult.response r.status (buildRespHeaders r.headers)
               (rewrite_m3u8_content r.text (baseUrlOf url) pp referer)
           else ProxyResult.streaming r.status (buildRespHeaders r.headers) r.chunks) ∧
    ∀ res, proxy_hls (.ok r) url referer pp = .ok res → resultStatus res = r.status := by
  have h := proxy_hls_ok_eval r url referer pp
  refine ⟨h, fun res hres => ?_⟩
  rw [h] at hres
  cases hres
  by_cases c : isM3u8 (headersGetCI r.headers (sc "content-type")) url = true <;>
    simp [c, resultStatus]

/-- C10 witness: the theorem applied at a concrete non-2xx streamed response,
discharging the implication at the evaluated handler output. -/
theorem C10_witness :
    resultStatus (ProxyResult.streaming 404 (buildRespHeaders []) []) = 404 := by
  exact (C10_status_passthrough ⟨404, [], sc "", []⟩ (sc "http://h/seg.ts") none
      (sc "http://p/proxy")).2
    (ProxyResult.streaming 404 (buildRespHeaders []) []) (by decide)

/-- C9.  When a `#EXT-X-STREAM-INF` or `#EXTINF` directive is followed by a
`#`-prefixed line, or is the last content of the document (directly at end of
input, or followed only by a final newline), its pattern does not match at
that occurrence; and a document in which no position matches any of the five
patterns is left byte-identical by the rewrite. -/
theorem C9_no_following_uri_line :
    (∀ attrs rest : Chars, '\n' ∉ attrs →
      matchTag litStreamInf (litStreamInf ++ attrs ++ '\n' :: '#' :: rest) = none ∧
      matchTag litExtInf (litExtInf ++ attrs ++ '\n' :: '#' :: rest) = none) ∧
    (∀ attrs : Chars, '\n' ∉ attrs →
      matchTag litStreamInf (litStreamInf ++ attrs) = none ∧
      matchTag litExtInf (litExtInf ++ attrs) = none ∧
      matchTag litStreamInf (litStreamInf ++ attrs ++ ['\n']) = none ∧
      matchTag litExtInf (litExtInf ++ attrs ++ ['\n']) = none) ∧
    (∀ (content base pp : Chars) (ref : Option Chars),
      (∀ t ∈ content.tails, matchTag litStreamInf t = none) →
      (∀ t ∈ content.tails, matchTag litExtInf t = none) →
      (∀ t ∈ content.tails, matchQuoted litMap t = none) →
      (∀ t ∈ content.tails, matchAttr litMedia t = none) →
      (∀ t ∈ content.tails, matchAttr litIFrame t = none) →
      rewrite_m3u8_content content base pp ref = content) := by
  refine ⟨fun attrs rest h =>
            ⟨matchTag_none_comment _ _ _ h, matchTag_none_comment _ _ _ h⟩,
          fun attrs h =>
            ⟨matchTag_none_eof _ _ h, matchTag_none_eof _ _ h,
             matchTag_none_trailing _ _ h, matchTag_none_trailing _ _ h⟩,
          fun content base pp ref h1 h2 h3 h4 h5 => ?_⟩
  show rsub (matchAttr litIFrame) _
      (rsub (matchAttr litMedia) _
        (rsub (matchQuoted litMap) _
          (rsub (matchTag litExtInf) _
            (rsub (matchTag litStreamInf) _ content)))) = content
  rw [rsub_id _ _ content h1, rsub_id _ _ content h2, rsub_id _ _ content h3,
    rsub_id _ _ content h4, rsub_id _ _ content h5]

/-- C9 witness: a concrete `#EXTINF` directive followed by a directive line
is left byte-identical by the full rewrite, and its pattern fails at the
occurrence. -/
theorem C9_witness :
    rewrite_m3u8_content (sc "#EXTINF:10,\n#EXT-X-ENDLIST") (sc "http://h/x/")
        (sc "http://p/proxy") none = sc "#EXTINF:10,\n#EXT-X-ENDLIST" ∧
    matchTag litExtInf (litExtInf ++ sc "10," ++ '\n' :: '#' :: sc "EXT-X-ENDLIST")
      = none := by
  constructor
  · exact C9_no_following_uri_line.2.2 (sc "#EXTINF:10,\n#EXT-X-ENDLIST")
      (sc "http://h/x/") (sc "http://p/proxy") none (by decide) (by decide)
      (by decide) (by decide) (by decide)
  · exact (C9_no_following_uri_line.1 (sc "10,") (sc "EXT-X-ENDLIST") (by decide)).2

/-- C2 counterexample.  In `#EXT-X-MEDIA:NAME="a",URI="a"` the captured URI
`a` occurs twice in the matched span.  `match.group(0).replace(url, proxy)`
(Python `str.replace`) substitutes every occurrence: the output rewrites
both, differing from the claim's "only the first occurrence is substituted"
and from its "surrounding attribute text is preserved character-for-
character". -/
theorem C2_counterexample :
    rewrite_m3u8_content (sc "#EXT-X-MEDIA:NAME=\"a\",URI=\"a\"") (sc "http://h/x/")
        (sc "http://p/proxy") none =
      sc "#EXT-X-MEDIA:NAME=\"http://p/proxy?url=http://h/x/a\",URI=\"http://p/proxy?url=http://h/x/a\"" ∧
    rewrite_m3u8_content (sc "#EXT-X-MEDIA:NAME=\"a\",URI=\"a\"") (sc "http://h/x/")
        (sc "http://p/proxy") none ≠
      sc "#EXT-X-MEDIA:NAME=\"http://p/proxy?url=http://h/x/a\",URI=\"a\"" ∧
    rewrite_m3u8_content (sc "#EXT-X-MEDIA:NAME=\"a\",URI=\"a\"") (sc "http://h/x/")
        (sc "http://p/proxy") none ≠
      sc "#EXT-X-MEDIA:NAME=\"a\",URI=\"http://p/proxy?url=http://h/x/a\"" := by
  refine ⟨by decide, by decide, by decide⟩

/-- C2 amended.  The rewrite replaces every occurrence of the extracted URI
substring within the matched span (Python `str.replace` substitutes all
occurrences, not only the first): when the URI occurs exactly once, exactly
it is replaced and all surrounding text is byte-identical; when it occurs
twice, both occurrences are replaced by the proxied URL. -/
theorem C2_replace_every_occurrence (base pp : Chars) (ref : Option Chars)
    (grp : Chars) (hg : grp ≠ []) :
    (∀ a b : Chars,
      (∀ i, i < a.length → grp.isPrefixOf ((a ++ grp ++ b).drop i) = false) →
      (∀ i, i < b.length → grp.isPrefixOf (b.drop i) = false) →
      rewrite_url base pp ref (a ++ grp ++ b) grp =
        a ++ proxyUrlOf pp (absoluteUrlOf base grp) ref ++ b) ∧
    (∀ a b c : Chars,
      (∀ i, i < a.length → grp.isPrefixOf ((a ++ grp ++ (b ++ grp ++ c)).drop i) = false) →
      (∀ i, i < b.length → grp.isPrefixOf ((b ++ grp ++ c).drop i) = false) →
      (∀ i, i < c.length → grp.isPrefixOf (c.drop i) = false) →
      rewrite_url base pp ref (a ++ grp ++ (b ++ grp ++ c)) grp =
        a ++ proxyUrlOf pp (absoluteUrlOf base grp) ref ++
          (b ++ proxyUrlOf pp (absoluteUrlOf base grp) ref ++ c)) := by
  constructor
  · intro a b h1 h2
    rw [rewrite_url, replAll_split grp _ hg a b h1, replAll_id grp _ hg b h2]
  · intro a b c h1 h2 h3
    rw [rewrite_url, replAll_split grp _ hg a _ h1, replAll_split grp _ hg b c h2,
      replAll_id grp _ hg c h3]

/-- C2 witness: the amended theorem applied at the concrete span of the
counterexample, substituting both occurrences of `a`. -/
theorem C2_witness :
    rewrite_url (sc "http://h/x/") (sc "http://p/proxy") none
        (sc "#EXT-X-MEDIA:NAME=\"" ++ sc "a" ++
          (sc "\",URI=\"" ++ sc "a" ++ sc "\"")) (sc "a") =
      sc "#EXT-X-MEDIA:NAME=\"" ++
        proxyUrlOf (sc "http://p/proxy") (absoluteUrlOf (sc "http://h/x/") (sc "a")) none ++
        (sc "\",URI=\"" ++
          proxyUrlOf (sc "http://p/proxy") (absoluteUrlOf (sc "http://h/x/") (sc "a")) none ++
          sc "\"") := by
  exact (C2_replace_every_occurrence (sc "http://h/x/") (sc "http://p/proxy") none
      (sc "a") (by decide)).2
    (sc "#EXT-X-MEDIA:NAME=\"") (sc "\",URI=\"") (sc "\"")
    (by decide) (by decide) (by decide)

theorem containsSub_cons_false (n : Chars) (x : Char) (s : Chars)
    (h1 : n.isPrefixOf (x :: s) = false) :
    containsSub n (x :: s) = containsSub n s := by
  rw [containsSub_cons, h1, Bool.false_or]

theorem lookupO_dsetO_self : ∀ (d : List (Chars × Option Chars)) (k : Chars)
    (v : Option Chars), lookupO (dsetO d k v) k = some v := by
  intro d
  induction d with
  | nil => intro k v; simp [dsetO, lookupO, List.find?]
  | cons p ps ih =>
    intro k v
    by_cases hp : p.1 = k
    · simp [dsetO, hp, lookupO, List.find?]
    · have hb : (p.1 == k) = false := by simp [hp]
      simp only [dsetO, if_neg hp, lookupO, List.find?_cons, hb]
      exact ih k v

theorem lookupO_dsetO_ne : ∀ (d : List (Chars × Option Chars)) (k k' : Chars)
    (v : Option Chars), k' ≠ k → lookupO (dsetO d k v) k' = lookupO d k' := by
  intro d
  induction d with
  | nil =>
    intro k k' v h
    have hb : (k == k') = false := by simp; exact fun e => h e.symm
    simp [dsetO, lookupO, List.find?, hb]
  | cons p ps ih =>
    intro k k' v h
    by_cases hp : p.1 = k
    · have hb : (k == k') = false := by simp; exact fun e => h e.symm
      have hb2 : (p.1 == k') = false := by simp [hp]; exact fun e => h e.symm
      simp [dsetO, hp, lookupO, List.find?_cons, hb, hb2]
    · cases hb2 : (p.1 == k') with
      | true => simp [dsetO, if_neg hp, lookupO, List.find?_cons, hb2]
      | false =>
        simp only [dsetO, if_neg hp, lookupO, List.find?_cons, hb2]
        exact ih k k' v h

theorem dropNones_cons_none (p : Chars × Option Chars) (ps : List (Chars × Option Chars))
    (h : p.2 = none) : dropNones (p :: ps) = dropNones ps := by
  simp [dropNones, List.filterMap_cons, h]

theorem dropNones_cons_some (p : Chars × Option Chars) (ps : List (Chars × Option Chars))
    (v : Chars) (h : p.2 = some v) :
    dropNones (p :: ps) = (p.1, v) :: dropNones ps := by
  simp [dropNones, List.filterMap_cons, h]

theorem lookupH_cons_ne (p : Chars × Chars) (ps : List (Chars × Chars)) (k : Chars)
    (h : (p.1 == k) = false) : lookupH (p :: ps) k = lookupH ps k := by
  simp [lookupH, List.find?_cons, h]

theorem lookupH_cons_self (p : Chars × Chars) (ps : List (Chars × Chars)) (k : Chars)
    (h : (p.1 == k) = true) : lookupH (p :: ps) k = some p.2 := by
  simp [lookupH, List.find?_cons, h]

theorem lookupO_cons_ne (p : Chars × Option Chars) (ps : List (Chars × Option Chars))
    (k : Chars) (h : (p.1 == k) = false) : lookupO (p :: ps) k = lookupO ps k := by
  simp [lookupO, List.find?_cons, h]

theorem lookupH_dropNones_absent : ∀ (d : List (Chars × Option Chars)) (k : Chars),
    k ∉ d.map Prod.fst → lookupH (dropNones d) k = none := by
  intro d
  induction d with
  | nil => intro k _; rfl
  | cons p ps ih =>
    intro k hk
    have h1 : p.1 ≠ k := fun e => hk (by simp [e])
    have h2 : k ∉ ps.map Prod.fst := fun e => hk (by simp [e])
    have hb : (p.1 == k) = false := by simp [h1]
    cases hv : p.2 with
    | none =>
      rw [dropNones_cons_none p ps hv]
      exact ih k h2
    | some v =>
      rw [dropNones_cons_some p ps v hv, lookupH_cons_ne _ _ _ hb]
      exact ih k h2

theorem lookupH_dropNones_none : ∀ (d : List (Chars × Option Chars)) (k : Chars),
    NodupKeys d → lookupO d k = some none → lookupH (dropNones d) k = none := by
  intro d
  induction d with
  | nil => intro k _ h; simp [lookupO, List.find?] at h
  | cons p ps ih =>
    intro k hnd h
    by_cases hp : p.1 = k
    · have hb : (p.1 == k) = true := by simp [hp]
      have hv : p.2 = none := by
        simp only [lookupO, List.find?_cons, hb] at h
        simpa using h
      have hk : k ∉ ps.map Prod.fst := by
        have := hnd
        simp only [NodupKeys, List.map_cons, List.nodup_cons] at this
        rw [← hp]
        exact this.1
      rw [dropNones_cons_none p ps hv]
      exact lookupH_dropNones_absent ps k hk
    · have hb : (p.1 == k) = false := by simp [hp]
      have h' : lookupO ps k = some none := by
        simpa only [lookupO, List.find?_cons, hb] using h
      have hnd' : NodupKeys ps := by
        have := hnd
        simp only [NodupKeys, List.map_cons, List.nodup_cons] at this
        exact this.2
      cases hv : p.2 with
      | none =>
        rw [dropNones_cons_none p ps hv]
        exact ih k hnd' h'
      | some v =>
        rw [dropNones_cons_some p ps v hv, lookupH_cons_ne _ _ _ hb]
        exact ih k hnd' h'

theorem lookupH_dropNones_some : ∀ (d : List (Chars × Option Chars)) (k v : Chars),
    lookupO d k = some (some v) → lookupH (dropNones d) k = some v := by
  intro d
  induction d with
  | nil => intro k v h; simp [lookupO, List.find?] at h
  | cons p ps ih =>
    intro k v h
    by_cases hp : p.1 = k
    · have hb : (p.1 == k) = true := by simp [hp]
      have hv : p.2 = some v := by
        simp only [lookupO, List.find?_cons, hb] at h
        simpa using h
      rw [dropNones_cons_some p ps v hv, lookupH_cons_self _ _ _ hb]
    · have hb : (p.1 == k) = false := by simp [hp]
      have h' : lookupO ps k = some (some v) := by
        simpa only [lookupO, List.find?_cons, hb] using h
      cases hv : p.2 with
      | none =>
        rw [dropNones_cons_none p ps hv]
        exact ih k v h'
      | some w =>
        rw [dropNones_cons_some p ps w hv, lookupH_cons_ne _ _ _ hb]
        exact ih k v h'

theorem dsetO_keys : ∀ (d : List (Chars × Option Chars)) (k : Chars) (v : Option Chars),
    (dsetO d k v).map Prod.fst =
      if k ∈ d.map Prod.fst then d.map Prod.fst else d.map Prod.fst ++ [k] := by
  intro d
  induction d with
  | nil => intro k v; simp [dsetO]
  | cons p ps ih =>
    intro k v
    by_cases hp : p.1 = k
    · simp [dsetO, hp]
    · have : k ∈ p.1 :: ps.map Prod.fst ↔ k ∈ ps.map Prod.fst := by
        simp [List.mem_cons]
        intro e
        exact absurd e.symm hp
      by_cases hm : k ∈ ps.map Prod.fst
      · simp [dsetO, if_neg hp, ih, hm, this]
      · simp [dsetO, if_neg hp, ih, hm, this]

theorem NodupKeys_dsetO (d : List (Chars × Option Chars)) (k : Chars)
    (v : Option Chars) (h : NodupKeys d) : NodupKeys (dsetO d k v) := by
  unfold NodupKeys
  rw [dsetO_keys]
  by_cases hm : k ∈ d.map Prod.fst
  · simpa [hm] using h
  · simp only [hm, if_false]
    rw [List.nodup_append]
    exact ⟨h, List.nodup_singleton k, by simpa using hm⟩

theorem NodupKeys_fold_step {α : Type}
    (step : List (Chars × Option Chars) → α → List (Chars × Option Chars))
    (hstep : ∀ d x, NodupKeys d → NodupKeys (step d x)) :
    ∀ (xs : List α) (acc : List (Chars × Option Chars)),
      NodupKeys acc → NodupKeys (xs.foldl step acc) := by
  intro xs
  induction xs with
  | nil => intro acc h; exact h
  | cons x xs ih => intro acc h; exact ih (step acc x) (hstep acc x h)

/-- C4 counterexample.  For referer `https://example.com/page` the outbound
`Origin` header is `urlparse(referer).netloc`, i.e. the bare host
`example.com`; the claim demands the scheme+host `https://example.com`. -/
theorem C4_counterexample :
    lookupH (buildOutHeaders [] (some (sc "https://example.com/page"))) (sc "Origin") =
      some (sc "example.com") ∧
    (urlsplitL (sc "https://example.com/page") []).scheme ++ sc "://" ++
      (urlsplitL (sc "https://example.com/page") []).netloc = sc "https://example.com" ∧
    sc "example.com" ≠ sc "https://example.com" := by
  refine ⟨by decide, by decide, by decide⟩

/-- C4 amended.  When a truthy referer is supplied, the outbound headers
carry `Referer` set to it and `Origin` set to the referer's netloc (bare
host, not scheme+host); when the referer is absent — or empty, which Python
truthiness treats as absent — the computed Origin value is None, the
None-filter drops the entry, and the outbound headers contain no `Origin`
key at all. -/
theorem C4_referer_origin (original : List (Chars × Chars)) :
    (∀ r : Chars, r ≠ [] →
      lookupH (buildOutHeaders original (some r)) (sc "Referer") = some r ∧
      lookupH (buildOutHeaders original (some r)) (sc "Origin") =
        some ((urlsplitL r []).netloc)) ∧
    lookupH (buildOutHeaders original none) (sc "Origin") = none ∧
    lookupH (buildOutHeaders original (some [])) (sc "Origin") = none := by
  have hstep1 : ∀ (d : List (Chars × Option Chars)) (p : Chars × Chars),
      NodupKeys d →
      NodupKeys (if bannedReq.contains (toLowerL p.1) then d else dsetO d p.1 (some p.2)) := by
    intro d p h
    split
    · exact h
    · exact NodupKeys_dsetO d p.1 (some p.2) h
  have hh1 : NodupKeys (original.foldl
      (fun d p => if bannedReq.contains (toLowerL p.1) then d
                  else dsetO d p.1 (some p.2)) []) := by
    apply NodupKeys_fold_step _ hstep1 original []
    simp [NodupKeys]
  refine ⟨fun r hr => ?_, ?_, ?_⟩
  · have htr : truthy (some r) = some r := by simp [truthy, hr]
    constructor
    · apply lookupH_dropNones_some
      simp only [buildOutHeaders, htr, List.foldl]
      rw [lookupO_dsetO_ne _ _ _ _ (by decide), lookupO_dsetO_ne _ _ _ _ (by decide),
        lookupO_dsetO_ne _ _ _ _ (by decide), lookupO_dsetO_ne _ _ _ _ (by decide),
        lookupO_dsetO_ne _ _ _ _ (by decide), lookupO_dsetO_self]
    · apply lookupH_dropNones_some
      simp only [buildOutHeaders, htr, List.foldl, Option.map_some']
      rw [lookupO_dsetO_ne _ _ _ _ (by decide), lookupO_dsetO_self]
  · apply lookupH_dropNones_none
    · simp only [buildOutHeaders, truthy, List.foldl]
      apply NodupKeys_dsetO
      apply NodupKeys_dsetO
      apply NodupKeys_dsetO
      apply NodupKeys_dsetO
      apply NodupKeys_dsetO
      exact hh1
    · simp only [buildOutHeaders, truthy, List.foldl, Option.map_none']
      rw [lookupO_dsetO_ne _ _ _ _ (by decide), lookupO_dsetO_self]
  · apply lookupH_dropNones_none
    · simp only [buildOutHeaders, truthy, List.foldl]
      apply NodupKeys_dsetO
      apply NodupKeys_dsetO
      apply NodupKeys_dsetO
      apply NodupKeys_dsetO
      apply NodupKeys_dsetO
      exact hh1
    · simp only [buildOutHeaders, truthy, List.foldl, Option.map_none']
      rw [lookupO_dsetO_ne _ _ _ _ (by decide), lookupO_dsetO_self]
      simp

/-- C4 witness: the amended theorem applied at a concrete inbound header
mapping and referer. -/
theorem C4_witness :
    lookupH (buildOutHeaders [(sc "accept", sc "text/html")]
        (some (sc "https://site.example/watch"))) (sc "Referer") =
      some (sc "https://site.example/watch") ∧
    lookupH (buildOutHeaders [(sc "accept", sc "text/html")]
        (some (sc "https://site.example/watch"))) (sc "Origin") =
      some ((urlsplitL (sc "https://site.example/watch") []).netloc) := by
  exact (C4_referer_origin [(sc "accept", sc "text/html")]).1
    (sc "https://site.example/watch") (by decide)

theorem hits_foldl_acc (ms : List Matcher) (repl : Chars → Chars → Chars) :
    ∀ (s : Chars) (acc : List (Chars × Chars)),
      (ms.foldl (fun a m => (rsub m repl a.1, a.2 ++ hitsOf (segs m a.1))) (s, acc)).2 =
        acc ++ (ms.foldl (fun a m => (rsub m repl a.1, a.2 ++ hitsOf (segs m a.1)))
          (s, [])).2 := by
  induction ms with
  | nil => intro s acc; simp
  | cons m ms ih =>
    intro s acc
    rw [List.foldl_cons, List.foldl_cons]
    rw [ih (rsub m repl s) (acc ++ hitsOf (segs m s)),
      ih (rsub m repl s) ([] ++ hitsOf (segs m s))]
    simp

/-- Every hit collected across the passes arises from a match of one of the
scanners. -/
theorem allHits_sound (ms : List Matcher) (repl : Chars → Chars → Chars) :
    ∀ (s : Chars) (p : Chars × Chars),
      p ∈ (ms.foldl (fun a m => (rsub m repl a.1, a.2 ++ hitsOf (segs m a.1))) (s, [])).2 →
      ∃ m ∈ ms, ∃ s' rest, m s' = some (p.1, p.2, rest) := by
  induction ms with
  | nil => intro s p hp; simp at hp
  | cons m ms ih =>
    intro s p hp
    rw [List.foldl_cons, hits_foldl_acc ms repl (rsub m repl s)] at hp
    rcases List.mem_append.1 hp with h1 | h2
    · have h1' : p ∈ hitsOf (segs m s) := by simpa using h1
      obtain ⟨s', rest, hm⟩ := hitsOf_segsF_sound m s.length s p h1'
      exact ⟨m, List.mem_cons_self _ _, s', rest, hm⟩
    · obtain ⟨m', hm', w⟩ := ih (rsub m repl s) p h2
      exact ⟨m', List.mem_cons_of_mem _ hm', w⟩

/-- Character-count preservation across the sequential passes, given that
every recorded substitution preserves the count. -/
theorem countC_foldl_matchers (repl : Chars → Chars → Chars) (c : Char) :
    ∀ (ms : List Matcher), (∀ m ∈ ms, MatcherOk m) →
      ∀ s : Chars,
        (∀ p ∈ (ms.foldl (fun a m => (rsub m repl a.1, a.2 ++ hitsOf (segs m a.1)))
            (s, ([] : List (Chars × Chars)))).2,
          countC c (repl p.1 p.2) = countC c p.1) →
        countC c (ms.foldl (fun acc m => rsub m repl acc) s) = countC c s := by
  intro ms
  induction ms with
  | nil => intro _ s _; rfl
  | cons m ms ih =>
    intro hms s hh
    have hmok : MatcherOk m := hms m (List.mem_cons_self _ _)
    have hms' : ∀ m' ∈ ms, MatcherOk m' := fun m' h' => hms m' (List.mem_cons_of_mem _ h')
    rw [List.foldl_cons, hits_foldl_acc ms repl (rsub m repl s)] at hh
    rw [List.foldl_cons]
    have hhead : ∀ p ∈ hitsOf (segs m s), countC c (repl p.1 p.2) = countC c p.1 := by
      intro p hp
      exact hh p (List.mem_append_left _ (by simpa using hp))
    have htail : ∀ p ∈ (ms.foldl (fun a m => (rsub m repl a.1, a.2 ++ hitsOf (segs m a.1)))
        (rsub m repl s, ([] : List (Chars × Chars)))).2,
        countC c (repl p.1 p.2) = countC c p.1 := by
      intro p hp
      exact hh p (List.mem_append_right _ hp)
    rw [ih hms' (rsub m repl s) htail]
    exact countC_rsubF m hmok repl c s.length s (le_refl _) hhead

theorem baseUrlOf_last_slash (b : Chars) (h : b.getLast? = some '/') :
    baseUrlOf b = b := by
  have hrev : b.reverse.head? = some '/' := by rw [List.head?_reverse]; exact h
  obtain ⟨t, ht⟩ : ∃ t, b.reverse = '/' :: t := by
    cases hb : b.reverse with
    | nil => rw [hb] at hrev; simp at hrev
    | cons c cs =>
      rw [hb] at hrev
      simp at hrev
      exact ⟨cs, by rw [hrev]⟩
  have hmem : '/' ∈ b := by
    have : '/' ∈ b.reverse := by rw [ht]; exact List.mem_cons_self _ _
    simpa using this
  have hcont : b.contains '/' = true := by simpa using hmem
  unfold baseUrlOf
  rw [if_pos hcont, ht, List.dropWhile_cons, if_neg (by simp)]
  rw [← ht, List.reverse_reverse]

/-- C5 counterexample.  `baseUrlOf` is exactly the spec's "base URL's
directory" (everything up to and including the final `/`).  For the
query-only reference `?x` against base `http://h/a/b.m3u8`, the code's
`urljoin(base_url, url)` keeps the base's final path segment
(`http://h/a/b.m3u8?x`), whereas standard resolution against the base URL's
directory yields `http://h/a/?x` — so the claim's branch-3 wording does not
match the code for references without a path component. -/
theorem C5_counterexample :
    absoluteUrlOf (sc "http://h/a/b.m3u8") (sc "?x") = sc "http://h/a/b.m3u8?x" ∧
    urljoinL (baseUrlOf (sc "http://h/a/b.m3u8")) (sc "?x") = sc "http://h/a/?x" ∧
    (sc "http://h/a/b.m3u8?x" : Chars) ≠ sc "http://h/a/?x" := by
  refine ⟨by decide, by decide, by decide⟩

/-- C5 amended.  The resolution step returns the URI unchanged when it
starts with `http://` or `https://` (resolution of an absolute URI is the
identity); glues the base URL's scheme and netloc to the URI when it starts
with `/` (discarding the base path); and otherwise applies standard
relative-URL resolution against the base URL itself — which coincides with
resolution against the base URL's directory whenever the base URL ends with
`/`, as the request handler always supplies (it passes
`url.rsplit('/', 1)[0] + '/'`). -/
theorem C5_resolution :
    (∀ base u : Chars,
      ((sc "http://").isPrefixOf u = true ∨ (sc "https://").isPrefixOf u = true) →
      absoluteUrlOf base u = u) ∧
    (∀ base u : Chars,
      ¬ ((sc "http://").isPrefixOf u = true ∨ (sc "https://").isPrefixOf u = true) →
      u.head? = some '/' →
      absoluteUrlOf base u =
        (urlsplitL base []).scheme ++ sc "://" ++ (urlsplitL base []).netloc ++ u) ∧
    (∀ base u : Chars,
      ¬ ((sc "http://").isPrefixOf u = true ∨ (sc "https://").isPrefixOf u = true) →
      u.head? ≠ some '/' →
      absoluteUrlOf base u = urljoinL base u) ∧
    (∀ b : Chars, b.getLast? = some '/' → baseUrlOf b = b) ∧
    (∀ base u : Chars, base.getLast? = some '/' →
      ¬ ((sc "http://").isPrefixOf u = true ∨ (sc "https://").isPrefixOf u = true) →
      u.head? ≠ some '/' →
      absoluteUrlOf base u = urljoinL (baseUrlOf base) u) := by
  have h1 : ∀ base u : Chars,
      ((sc "http://").isPrefixOf u = true ∨ (sc "https://").isPrefixOf u = true) →
      absoluteUrlOf base u = u := by
    intro base u h
    unfold absoluteUrlOf
    rw [if_pos h]
  have h3 : ∀ base u : Chars,
      ¬ ((sc "http://").isPrefixOf u = true ∨ (sc "https://").isPrefixOf u = true) →
      u.head? ≠ some '/' →
      absoluteUrlOf base u = urljoinL base u := by
    intro base u h hd
    unfold absoluteUrlOf
    rw [if_neg h, if_neg hd]
  refine ⟨h1, ?_, h3, baseUrlOf_last_slash, ?_⟩
  · intro base u h hd
    unfold absoluteUrlOf
    rw [if_neg h, if_pos hd]
  · intro base u hb h hd
    rw [h3 base u h hd, baseUrlOf_last_slash base hb]

/-- C5 witness: the amended theorem applied at concrete inputs — an absolute
URI passes through unchanged, and for a directory-shaped base (as the
handler supplies) the relative branch equals resolution against the base's
directory. -/
theorem C5_witness :
    absoluteUrlOf (sc "http://h/x/") (sc "https://cdn.example.com/live/low.m3u8") =
      sc "https://cdn.example.com/live/low.m3u8" ∧
    absoluteUrlOf (sc "http://h/x/") (sc "seg1.ts") =
      urljoinL (baseUrlOf (sc "http://h/x/")) (sc "seg1.ts") := by
  constructor
  · exact C5_resolution.1 (sc "http://h/x/") (sc "https://cdn.example.com/live/low.m3u8")
      (Or.inr (by decide))
  · exact C5_resolution.2.2.2.2 (sc "http://h/x/") (sc "seg1.ts") (by decide)
      (by decide) (by decide)

/-- C7 counterexample.  For playlist `#EXTINF:x,\nx` the single recognized
reference `x` also occurs in the directive's attribute text; `str.replace`
substitutes both occurrences, so the output embeds two proxied URLs for one
input reference — the correspondence is not one-to-one and multiplicity is
not preserved. -/
theorem C7_counterexample :
    rewrite_m3u8_content (sc "#EXTINF:x,\nx") (sc "http://h/x/") (sc "http://p/proxy")
        none =
      sc "#EXTINF:http://p/proxy?url=http://h/x/x,\nhttp://p/proxy?url=http://h/x/x" ∧
    (allHits (sc "#EXTINF:x,\nx") (sc "http://h/x/") (sc "http://p/proxy") none).length
      = 1 ∧
    countSub (sc "?url=") (rewrite_m3u8_content (sc "#EXTINF:x,\nx") (sc "http://h/x/")
      (sc "http://p/proxy") none) = 2 := by
  refine ⟨by decide, by decide, by decide⟩

/-- C7 amended.  Rewriting is an in-place, left-to-right substitution: each
pass decomposes its input into unmatched characters, copied byte-identically
in order, and matched spans, reassembling to exactly the input (so nothing
is restructured, reordered or dropped); each matched span is replaced by the
span with every occurrence of its captured URI substituted by the proxied
form of its resolved URL — the replacement always contains that proxied URL,
but multiplicity can exceed one when the URI recurs inside its span; and the
number of playlist lines is unchanged whenever the proxy path, the (truthy)
referer, and every captured URI and its resolved form are newline-free. -/
theorem C7_rewrite_in_place :
    (∀ m ∈ theMatchers, ∀ (repl : Chars → Chars → Chars) (s : Chars),
      joinL ((segs m s).map segOrig) = s ∧
      rsub m repl s = joinL ((segs m s).map (segOut repl))) ∧
    (∀ m ∈ theMatchers, ∀ (base pp s sp u rest : Chars) (ref : Option Chars),
      m s = some (sp, u, rest) →
      OccursIn (proxyUrlOf pp (absoluteUrlOf base u) ref)
        (rewrite_url base pp ref sp u)) ∧
    (∀ (content base pp : Chars) (ref : Option Chars),
      countC '\n' pp = 0 → refNl ref = 0 →
      (∀ p ∈ allHits content base pp ref,
        countC '\n' p.2 = 0 ∧ countC '\n' (absoluteUrlOf base p.2) = 0) →
      countC '\n' (rewrite_m3u8_content content base pp ref) = countC '\n' content) := by
  refine ⟨?_, ?_, ?_⟩
  · intro m hm repl s
    exact ⟨segsF_orig m (allMatchersOk m hm) s.length s (le_refl _),
           rsubF_eq_joinL m repl s.length s⟩
  · intro m hm base pp s sp u rest ref hms
    obtain ⟨_, _, hu, x, y, hxy⟩ := allMatchersOk m hm s sp u rest hms
    show OccursIn _ (replAll u (proxyUrlOf pp (absoluteUrlOf base u) ref) sp)
    rw [hxy]
    exact replAll_occurs_new u _ hu x y
  · intro content base pp ref hpp href hhits
    have step : ∀ p ∈ allHits content base pp ref,
        countC '\n' (rewrite_url base pp ref p.1 p.2) = countC '\n' p.1 := by
      intro p hp
      obtain ⟨hn2, hnabs⟩ := hhits p hp
      obtain ⟨m, hm, s', rest, hms⟩ := allHits_sound theMatchers
        (rewrite_url base pp ref) content p hp
      have hune : p.2 ≠ [] := (allMatchersOk m hm s' p.1 p.2 rest hms).2.2.1
      have hP : countC '\n' (proxyUrlOf pp (absoluteUrlOf base p.2) ref) = 0 := by
        unfold proxyUrlOf
        rw [countC_append, countC_append, countC_append, hpp, hnabs]
        have hq : countC '\n' (sc "?url=") = 0 := by decide
        rw [hq]
        cases htr : truthy ref with
        | none => simp [countC]
        | some r =>
          have hr : countC '\n' r = 0 := by
            unfold refNl at href
            rw [htr] at href
            exact href
          have ha : countC '\n' (sc "&referer=") = 0 := by decide
          rw [countC_append, ha, hr]
      show countC '\n'
          (replAll p.2 (proxyUrlOf pp (absoluteUrlOf base p.2) ref) p.1) =
        countC '\n' p.1
      exact countC_replAll p.2 _ '\n' hune (by rw [hP, hn2]) p.1
    show countC '\n'
        (theMatchers.foldl (fun acc m => rsub m (rewrite_url base pp ref) acc) content) =
      countC '\n' content
    exact countC_foldl_matchers (rewrite_url base pp ref) '\n' theMatchers
      allMatchersOk content step

/-- C7 witness: the amended theorem applied at a concrete playlist — the
decomposition reassembles the input, the replacement embeds the proxied URL,
and the line count is preserved. -/
theorem C7_witness :
    joinL ((segs (matchTag litExtInf) (sc "#EXTINF:5,\nseg.ts")).map segOrig) =
      sc "#EXTINF:5,\nseg.ts" ∧
    OccursIn (proxyUrlOf (sc "http://p/proxy")
        (absoluteUrlOf (sc "http://h/x/") (sc "seg.ts")) none)
      (rewrite_url (sc "http://h/x/") (sc "http://p/proxy") none
        (sc "#EXTINF:5,\nseg.ts") (sc "seg.ts")) ∧
    countC '\n' (rewrite_m3u8_content (sc "#EXTINF:5,\nseg.ts") (sc "http://h/x/")
      (sc "http://p/proxy") none) = countC '\n' (sc "#EXTINF:5,\nseg.ts") := by
  refine ⟨?_, ?_, ?_⟩
  · exact (C7_rewrite_in_place.1 (matchTag litExtInf)
      (List.mem_cons_of_mem _ (List.mem_cons_self _ _))
      (rewrite_url (sc "http://h/x/") (sc "http://p/proxy") none)
      (sc "#EXTINF:5,\nseg.ts")).1
  · exact C7_rewrite_in_place.2.1 (matchTag litExtInf)
      (List.mem_cons_of_mem _ (List.mem_cons_self _ _))
      (sc "http://h/x/") (sc "http://p/proxy") (sc "#EXTINF:5,\nseg.ts")
      (sc "#EXTINF:5,\nseg.ts") (sc "seg.ts") [] none (by decide)
  · exact C7_rewrite_in_place.2.2 (sc "#EXTINF:5,\nseg.ts") (sc "http://h/x/")
      (sc "http://p/proxy") none (by decide) (by decide) (by decide)

theorem dset_fresh : ∀ (d : List (Chars × Chars)) (k v : Chars),
    (∀ q ∈ d, q.1 ≠ k) → dset d k v = d ++ [(k, v)] := by
  intro d
  induction d with
  | nil => intro k v _; rfl
  | cons p ps ih =>
    intro k v h
    have hp : p.1 ≠ k := h p (List.mem_cons_self _ _)
    simp only [dset, if_neg hp]
    rw [ih k v (fun q hq => h q (List.mem_cons_of_mem _ hq))]
    simp

/-- Building the passthrough dict from an empty accumulator with unique
upstream keys is exactly the banned-set filter. -/
theorem fold_dset_filter :
    ∀ (l acc : List (Chars × Chars)),
      (∀ p ∈ l, ∀ q ∈ acc, q.1 ≠ p.1) →
      (l.map Prod.fst).Nodup →
      l.foldl (fun d p => if bannedResp.contains (toLowerL p.1) then d
                          else dset d p.1 p.2) acc =
        acc ++ l.filter (fun p => ! bannedResp.contains (toLowerL p.1)) := by
  intro l
  induction l with
  | nil => intro acc _ _; simp
  | cons p ps ih =>
    intro acc hfresh hnd
    have hnd' : (ps.map Prod.fst).Nodup := by
      simp only [List.map_cons, List.nodup_cons] at hnd
      exact hnd.2
    have hpns : p.1 ∉ ps.map Prod.fst := by
      simp only [List.map_cons, List.nodup_cons] at hnd
      exact hnd.1
    rw [List.foldl_cons]
    cases hb : bannedResp.contains (toLowerL p.1) with
    | true =>
      rw [if_pos rfl, ih acc (fun q hq => hfresh q (List.mem_cons_of_mem _ hq)) hnd',
        List.filter_cons_of_neg (by simp; simpa using hb)]
    | false =>
      have e1 : (if (false = true) then acc else dset acc p.1 p.2) = acc ++ [p] := by
        rw [if_neg (by simp), dset_fresh acc p.1 p.2
          (fun q hq => hfresh p (List.mem_cons_self _ _) q hq)]
      rw [e1, ih (acc ++ [p]) ?_ hnd', List.filter_cons_of_pos (by simp; simpa using hb)]
      · simp
      · intro p' hp' q hq
        rcases List.mem_append.1 hq with hqa | hqp
        · exact hfresh p' (List.mem_cons_of_mem _ hp') q hqa
        · have : q = p := by simpa using hqp
          subst this
          intro e
          exact hpns (by rw [e]; exact List.mem_map_of_mem Prod.fst hp')

/-- C8.  The emitted headers are exactly the upstream headers minus those
whose lowercase name is in {transfer-encoding, content-encoding,
content-length}, followed by the three fixed CORS headers; every non-dropped
upstream pair survives, every dropped name is absent, the three CORS values
are always present, and both handler branches emit this same mapping.  The
hypotheses record that the upstream mapping (as presented by the HTTP
client, which lower-cases header names) has lowercase, unique keys. -/
theorem C8_response_headers (upstream : List (Chars × Chars))
    (hlow : ∀ p ∈ upstream, toLowerL p.1 = p.1)
    (hnd : (upstream.map Prod.fst).Nodup) :
    buildRespHeaders upstream =
      upstream.filter (fun p => ! bannedResp.contains (toLowerL p.1)) ++
        [(sc "Access-Control-Allow-Origin", sc "*"),
         (sc "Access-Control-Allow-Methods", sc "GET, OPTIONS"),
         (sc "Access-Control-Allow-Headers", sc "*")] ∧
    (∀ p ∈ upstream, bannedResp.contains (toLowerL p.1) = false →
      p ∈ buildRespHeaders upstream) ∧
    (∀ p ∈ upstream, bannedResp.contains (toLowerL p.1) = true →
      lookupH (buildRespHeaders upstream) p.1 = none) ∧
    lookupH (buildRespHeaders upstream) (sc "Access-Control-Allow-Origin") =
      some (sc "*") ∧
    lookupH (buildRespHeaders upstream) (sc "Access-Control-Allow-Methods") =
      some (sc "GET, OPTIONS") ∧
    lookupH (buildRespHeaders upstream) (sc "Access-Control-Allow-Headers") =
      some (sc "*") ∧
    (∀ (r : UpstreamResp) (url pp : Chars) (ref : Option Chars) (res : ProxyResult),
      proxy_hls (.ok r) url ref pp = .ok res →
      resultHeaders res = buildRespHeaders r.headers) := by
  have hmemf : ∀ q ∈ upstream.filter (fun p => ! bannedResp.contains (toLowerL p.1)),
      toLowerL q.1 = q.1 ∧ (! bannedResp.contains (toLowerL q.1)) = true := by
    intro q hq
    have := List.mem_filter.1 hq
    exact ⟨hlow q this.1, this.2⟩
  have hneA : ∀ q ∈ upstream.filter (fun p => ! bannedResp.contains (toLowerL p.1)),
      q.1 ≠ sc "Access-Control-Allow-Origin" := by
    intro q hq e
    have h1 := (hmemf q hq).1
    rw [e] at h1
    exact absurd h1 (by decide)
  have hneM : ∀ q ∈ upstream.filter (fun p => ! bannedResp.contains (toLowerL p.1)),
      q.1 ≠ sc "Access-Control-Allow-Methods" := by
    intro q hq e
    have h1 := (hmemf q hq).1
    rw [e] at h1
    exact absurd h1 (by decide)
  have hneH : ∀ q ∈ upstream.filter (fun p => ! bannedResp.contains (toLowerL p.1)),
      q.1 ≠ sc "Access-Control-Allow-Headers" := by
    intro q hq e
    have h1 := (hmemf q hq).1
    rw [e] at h1
    exact absurd h1 (by decide)
  have heq : buildRespHeaders upstream =
      upstream.filter (fun p => ! bannedResp.contains (toLowerL p.1)) ++
        [(sc "Access-Control-Allow-Origin", sc "*"),
         (sc "Access-Control-Allow-Methods", sc "GET, OPTIONS"),
         (sc "Access-Control-Allow-Headers", sc "*")] := by
    have e1 : dset (upstream.filter (fun p => ! bannedResp.contains (toLowerL p.1)))
        (sc "Access-Control-Allow-Origin") (sc "*") =
        upstream.filter (fun p => ! bannedResp.contains (toLowerL p.1)) ++
          [(sc "Access-Control-Allow-Origin", sc "*")] :=
      dset_fresh _ _ _ (fun q hq => hneA q hq)
    have e2 : dset (upstream.filter (fun p => ! bannedResp.contains (toLowerL p.1)) ++
          [(sc "Access-Control-Allow-Origin", sc "*")])
        (sc "Access-Control-Allow-Methods") (sc "GET, OPTIONS") =
        upstream.filter (fun p => ! bannedResp.contains (toLowerL p.1)) ++
          [(sc "Access-Control-Allow-Origin", sc "*")] ++
          [(sc "Access-Control-Allow-Methods", sc "GET, OPTIONS")] :=
      dset_fresh _ _ _ (by
        intro q hq
        rcases List.mem_append.1 hq with h1 | h2
        · exact hneM q h1
        · have : q = (sc "Access-Control-Allow-Origin", sc "*") := by simpa using h2
          subst this
          decide)
    have e3 : dset (upstream.filter (fun p => ! bannedResp.contains (toLowerL p.1)) ++
          [(sc "Access-Control-Allow-Origin", sc "*")] ++
          [(sc "Access-Control-Allow-Methods", sc "GET, OPTIONS")])
        (sc "Access-Control-Allow-Headers") (sc "*") =
        upstream.filter (fun p => ! bannedResp.contains (toLowerL p.1)) ++
          [(sc "Access-Control-Allow-Origin", sc "*")] ++
          [(sc "Access-Control-Allow-Methods", sc "GET, OPTIONS")] ++
          [(sc "Access-Control-Allow-Headers", sc "*")] :=
      dset_fresh _ _ _ (by
        intro q hq
        rcases List.mem_append.1 hq with h1 | h2
        · rcases List.mem_append.1 h1 with h3 | h4
          · exact hneH q h3
          · have : q = (sc "Access-Control-Allow-Origin", sc "*") := by simpa using h4
            subst this
            decide
        · have : q = (sc "Access-Control-Allow-Methods", sc "GET, OPTIONS") := by
            simpa using h2
          subst this
          decide)
    simp only [buildRespHeaders]
    rw [fold_dset_filter upstream [] (by simp) hnd]
    simp only [List.nil_append]
    rw [e1, e2, e3]
    simp
  refine ⟨heq, ?_, ?_, ?_, ?_, ?_, ?_⟩
  · intro p hp hb
    rw [heq]
    exact List.mem_append_left _ (List.mem_filter.2 ⟨hp, by rw [hb]; rfl⟩)
  · intro p hp hb
    rw [heq]
    have h1 : List.find? (fun q => q.1 == p.1)
        (upstream.filter (fun p => ! bannedResp.contains (toLowerL p.1))) = none := by
      rw [List.find?_eq_none]
      intro x hx hbeq
      have hx1 : x.1 = p.1 := by simpa using hbeq
      have h2 := (hmemf x hx).2
      rw [hx1, hb] at h2
      simp at h2
    have hpl := hlow p hp
    have hA : ((sc "Access-Control-Allow-Origin" : Chars) == p.1) = false := by
      cases hx : ((sc "Access-Control-Allow-Origin" : Chars) == p.1) with
      | true =>
        exfalso
        have he : (sc "Access-Control-Allow-Origin" : Chars) = p.1 := by simpa using hx
        rw [← he] at hpl
        exact absurd hpl (by decide)
      | false => rfl
    have hM : ((sc "Access-Control-Allow-Methods" : Chars) == p.1) = false := by
      cases hx : ((sc "Access-Control-Allow-Methods" : Chars) == p.1) with
      | true =>
        exfalso
        have he : (sc "Access-Control-Allow-Methods" : Chars) = p.1 := by simpa using hx
        rw [← he] at hpl
        exact absurd hpl (by decide)
      | false => rfl
    have hH : ((sc "Access-Control-Allow-Headers" : Chars) == p.1) = false := by
      cases hx : ((sc "Access-Control-Allow-Headers" : Chars) == p.1) with
      | true =>
        exfalso
        have he : (sc "Access-Control-Allow-Headers" : Chars) = p.1 := by simpa using hx
        rw [← he] at hpl
        exact absurd hpl (by decide)
      | false => rfl
    simp only [lookupH, List.find?_append, h1, Option.none_or]
    rw [List.find?_cons_of_neg _ (by simp [hA]), List.find?_cons_of_neg _ (by simp [hM]),
      List.find?_cons_of_neg _ (by simp [hH])]
    rfl
  · rw [heq]
    have hfA : List.find? (fun q => q.1 == sc "Access-Control-Allow-Origin")
        (upstream.filter (fun p => ! bannedResp.contains (toLowerL p.1))) = none := by
      rw [List.find?_eq_none]
      intro x hx hbeq
      exact hneA x hx (by simpa using hbeq)
    simp only [lookupH, List.find?_append, hfA, Option.none_or]
    rw [List.find?_cons_of_pos _ (by simp)]
    rfl
  · rw [heq]
    have hfM : List.find? (fun q => q.1 == sc "Access-Control-Allow-Methods")
        (upstream.filter (fun p => ! bannedResp.contains (toLowerL p.1))) = none := by
      rw [List.find?_eq_none]
      intro x hx hbeq
      exact hneM x hx (by simpa using hbeq)
    have b1 : ((sc "Access-Control-Allow-Origin" : Chars) ==
        sc "Access-Control-Allow-Methods") = false := by decide
    simp only [lookupH, List.find?_append, hfM, Option.none_or]
    rw [List.find?_cons_of_neg _ (by simp [b1]), List.find?_cons_of_pos _ (by simp)]
    rfl
  · rw [heq]
    have hfH : List.find? (fun q => q.1 == sc "Access-Control-Allow-Headers")
        (upstream.filter (fun p => ! bannedResp.contains (toLowerL p.1))) = none := by
      rw [List.find?_eq_none]
      intro x hx hbeq
      exact hneH x hx (by simpa using hbeq)
    have b1 : ((sc "Access-Control-Allow-Origin" : Chars) ==
        sc "Access-Control-Allow-Headers") = false := by decide
    have b2 : ((sc "Access-Control-Allow-Methods" : Chars) ==
        sc "Access-Control-Allow-Headers") = false := by decide
    simp only [lookupH, List.find?_append, hfH, Option.none_or]
    rw [List.find?_cons_of_neg _ (by simp [b1]), List.find?_cons_of_neg _ (by simp [b2]),
      List.find?_cons_of_pos _ (by simp)]
    rfl
  · intro r url pp ref res h
    rw [proxy_hls_ok_eval r url ref pp] at h
    have h2 : (if isM3u8 (headersGetCI r.headers (sc "content-type")) url then
        ProxyResult.response r.status (buildRespHeaders r.headers)
          (rewrite_m3u8_content r.text (baseUrlOf url) pp ref)
      else ProxyResult.streaming r.status (buildRespHeaders r.headers) r.chunks) = res :=
      Except.ok.inj h
    rw [← h2]
    by_cases c : isM3u8 (headersGetCI r.headers (sc "content-type")) url = true
    · simp [c, resultHeaders]
    · simp [c, resultHeaders]

/-- C8 witness: the theorem applied at a concrete upstream header mapping
with lowercase unique keys, discharging both hypotheses. -/
theorem C8_witness :
    lookupH (buildRespHeaders [(sc "content-type", sc "video/mp2t"),
        (sc "content-length", sc "42")]) (sc "Access-Control-Allow-Origin") =
      some (sc "*") ∧
    lookupH (buildRespHeaders [(sc "content-type", sc "video/mp2t"),
        (sc "content-length", sc "42")]) (sc "content-length") = none := by
  constructor
  · exact (C8_response_headers [(sc "content-type", sc "video/mp2t"),
      (sc "content-length", sc "42")] (by decide) (by decide)).2.2.2.1
  · exact (C8_response_headers [(sc "content-type", sc "video/mp2t"),
      (sc "content-length", sc "42")] (by decide) (by decide)).2.2.1
      (sc "content-length", sc "42") (by simp) (by decide)

/-- C6.  Every rewritten reference has exactly the form
`proxyBasePath?url=absoluteResolvedURL`, with `&referer=referer` appended iff
a truthy referer was supplied; the absolute URL is embedded verbatim (no
percent-encoding is applied); and with no referer supplied no `referer=`
query key appears in the rewritten URL (provided neither the proxy path nor
the absolute URL smuggles one in). -/
theorem C6_proxied_url_form :
    (∀ pp absUrl : Chars, proxyUrlOf pp absUrl none = pp ++ sc "?url=" ++ absUrl) ∧
    (∀ pp absUrl r : Chars, r ≠ [] →
      proxyUrlOf pp absUrl (some r) =
        pp ++ sc "?url=" ++ absUrl ++ sc "&referer=" ++ r) ∧
    (∀ pp absUrl : Chars, proxyUrlOf pp absUrl (some []) = pp ++ sc "?url=" ++ absUrl) ∧
    (∀ (pp absUrl : Chars) (ref : Option Chars),
      OccursIn absUrl (proxyUrlOf pp absUrl ref)) ∧
    (∀ pp absUrl : Chars, containsSub (sc "referer=") pp = false →
      containsSub (sc "referer=") absUrl = false →
      containsSub (sc "referer=") (proxyUrlOf pp absUrl none) = false) := by
  refine ⟨fun pp absUrl => by simp [proxyUrlOf, truthy],
          fun pp absUrl r hr => ?_, fun pp absUrl => by simp [proxyUrlOf, truthy],
          fun pp absUrl ref => ?_, fun pp absUrl h1 h2 => ?_⟩
  · simp [proxyUrlOf, truthy, hr, List.append_assoc]
  · refine ⟨pp ++ sc "?url=", ?_, ?_⟩
    · exact (match truthy ref with
        | some r => sc "&referer=" ++ r
        | none => [])
    · simp [proxyUrlOf, List.append_assoc]
  · have hq : sc "?url=" ++ absUrl = '?' :: 'u' :: 'r' :: 'l' :: '=' :: absUrl := rfl
    have e : proxyUrlOf pp absUrl none =
        pp ++ '?' :: ('u' :: 'r' :: 'l' :: '=' :: absUrl) := by
      simp [proxyUrlOf, truthy, List.append_assoc, hq]
    have k1 : (sc "referer=").isPrefixOf ('u' :: 'r' :: 'l' :: '=' :: absUrl) = false := rfl
    have k2 : (sc "referer=").isPrefixOf ('r' :: 'l' :: '=' :: absUrl) = false := rfl
    have k3 : (sc "referer=").isPrefixOf ('l' :: '=' :: absUrl) = false := rfl
    have k4 : (sc "referer=").isPrefixOf ('=' :: absUrl) = false := rfl
    rw [e, containsSub_append_cons (sc "referer=") '?' (by decide) pp _, h1,
      Bool.false_or, containsSub_cons_false _ 'u' _ k1,
      containsSub_cons_false _ 'r' _ k2, containsSub_cons_false _ 'l' _ k3,
      containsSub_cons_false _ '=' _ k4, h2]

/-- C6 witness: the theorem applied at concrete proxy path, absolute URL and
referer, discharging the nonemptiness and no-smuggled-key hypotheses. -/
theorem C6_witness :
    proxyUrlOf (sc "http://p/proxy") (sc "http://h/x/a.ts") (some (sc "https://r.example/")) =
      sc "http://p/proxy" ++ sc "?url=" ++ sc "http://h/x/a.ts" ++ sc "&referer=" ++
        sc "https://r.example/" ∧
    containsSub (sc "referer=") (proxyUrlOf (sc "http://p/proxy") (sc "http://h/x/a.ts") none)
      = false := by
  constructor
  · exact C6_proxied_url_form.2.1 (sc "http://p/proxy") (sc "http://h/x/a.ts")
      (sc "https://r.example/") (by decide)
  · exact C6_proxied_url_form.2.2.2.2 (sc "http://p/proxy") (sc "http://h/x/a.ts")
      (by decide) (by decide)

end HLSProxy
